import Mathlib

/-!
Verification of the knowledge-graph maintenance engine of the seneschal
repository. The definitions below are a shallow embedding of the TypeScript
source: the relational store is a pair of row lists, each drizzle query is
translated to the corresponding list filter/map, and the JavaScript `Map` /
`Set` containers used by the traversal are modelled with explicit
insertion-order-preserving list operations.
-/

namespace Seneschal

/-- Privacy levels, from PRIVACY_LEVELS in src/common. -/
inductive PrivacyLevel where
  | PUBLIC
  | PRIVATE
deriving DecidableEq, Repr

/-- Source types, from SOURCE_TYPES in src/common. -/
inductive SourceType where
  | USER
  | SEARCH
deriving DecidableEq, Repr

open PrivacyLevel SourceType

/-- Row of the `entities` table (SelectEntity in src/db/schema.ts). Entity and
relation type tags are closed string vocabularies in the source; they are kept
as strings here. The JSON metadata column is kept as an opaque optional
string. -/
structure Entity where
  id : Nat
  name : String
  type : String
  description : Option String
  privacyLevel : PrivacyLevel
  sourceType : SourceType
  sourceDocumentId : Option Nat
  metadata : Option String
deriving DecidableEq, Repr

/-- Row of the `relations` table (SelectRelation in src/db/schema.ts). -/
structure Relation where
  id : Nat
  sourceEntityId : Nat
  targetEntityId : Nat
  type : String
  description : Option String
  privacyLevel : PrivacyLevel
  sourceType : SourceType
  sourceDocumentId : Option Nat
  properties : Option String
deriving DecidableEq, Repr

/-- The relational store: the entity and relation tables, each a list of rows
in the order the database returns them. -/
structure Store where
  entities : List Entity
  relations : List Relation
deriving DecidableEq, Repr

/-- The drizzle query `db.select().from(entitiesTable).where(eq(entitiesTable.id, id))`
destructured as `const [row] = ...`: the first row whose id matches. -/
def findById (es : List Entity) (i : Nat) : Option Entity :=
  (es.filter (fun e => e.id = i)).head?

/-- The store write `updateEntity(id, { privacyLevel: lvl })` from
src/db/schema.ts: an SQL UPDATE touching every row whose id matches. -/
def updateEntityPrivacy (s : Store) (i : Nat) (lvl : PrivacyLevel) : Store :=
  { s with entities := s.entities.map fun e =>
      if e.id = i then { e with privacyLevel := lvl } else e }

/-- Step 0 of mergeEntities (src/db/schema.ts, lines 397-412): fetch winner and
loser rows; if the loser is PRIVATE and the winner PUBLIC, upgrade the winner
to PRIVATE. -/
def mergeStep0 (s : Store) (winnerId loserId : Nat) : Store :=
  match findById s.entities winnerId, findById s.entities loserId with
  | some winner, some loser =>
      if loser.privacyLevel = PRIVATE ∧ winner.privacyLevel = PUBLIC then
        updateEntityPrivacy s winnerId PRIVATE
      else s
  | _, _ => s

/-- Step 1 of mergeEntities: UPDATE relations SET source_entity_id = winnerId
WHERE source_entity_id = loserId. -/
def mergeStep1 (s : Store) (winnerId loserId : Nat) : Store :=
  { s with relations := s.relations.map fun r =>
      if r.sourceEntityId = loserId then { r with sourceEntityId := winnerId } else r }

/-- Step 2 of mergeEntities: UPDATE relations SET target_entity_id = winnerId
WHERE target_entity_id = loserId. -/
def mergeStep2 (s : Store) (winnerId loserId : Nat) : Store :=
  { s with relations := s.relations.map fun r =>
      if r.targetEntityId = loserId then { r with targetEntityId := winnerId } else r }

/-- Step 3 of mergeEntities: DELETE FROM entities WHERE id = loserId. -/
def mergeStep3 (s : Store) (loserId : Nat) : Store :=
  { s with entities := s.entities.filter fun e => e.id ≠ loserId }

/-- mergeEntities from src/db/schema.ts (lines 393-428): privacy upgrade, then
both endpoint rewrites, then deletion of the loser, as four sequential store
writes. -/
def mergeEntities (s : Store) (winnerId loserId : Nat) : Store :=
  mergeStep3 (mergeStep2 (mergeStep1 (mergeStep0 s winnerId loserId) winnerId loserId)
    winnerId loserId) loserId

/-- mergeEntities from src/db/query.ts (lines 120-138): the older variant that
performs no privacy upgrade, only endpoint rewrites and loser deletion. -/
def mergeEntitiesQueryVariant (s : Store) (winnerId loserId : Nat) : Store :=
  mergeStep3 (mergeStep2 (mergeStep1 s winnerId loserId) winnerId loserId) loserId

/-- State of the schema.ts mergeEntities after the first `k` of its four store
writes have completed; an exception between writes leaves the store in one of
these states. -/
def mergeEntitiesSteps (s : Store) (winnerId loserId : Nat) : Nat → Store
  | 0 => s
  | 1 => mergeStep0 s winnerId loserId
  | 2 => mergeStep1 (mergeStep0 s winnerId loserId) winnerId loserId
  | 3 => mergeStep2 (mergeStep1 (mergeStep0 s winnerId loserId) winnerId loserId)
           winnerId loserId
  | _ => mergeEntities s winnerId loserId

/-- A list is unchanged by `map f` only when `f` fixes every element. -/
theorem map_eq_self_of {α : Type} {f : α → α} :
    ∀ {as : List α}, as.map f = as → ∀ a ∈ as, f a = a := by
  intro as
  induction as with
  | nil => intro _ a ha; cases ha
  | cons x xs ih =>
      intro h a ha
      rw [List.map_cons, List.cons_eq_cons] at h
      rw [List.mem_cons] at ha
      rcases ha with rfl | ha
      · exact h.1
      · exact ih h.2 a ha

/-- With pairwise-distinct ids, filtering on an id present in the list yields
exactly the singleton of its row. -/
theorem filter_id_eq_singleton {es : List Entity} {e : Entity} {i : Nat}
    (hnd : (es.map (·.id)).Nodup) (he : e ∈ es) (hid : e.id = i) :
    es.filter (fun x => x.id = i) = [e] := by
  induction es with
  | nil => cases he
  | cons x xs ih =>
      rw [List.map_cons, List.nodup_cons] at hnd
      rw [List.mem_cons] at he
      rcases he with rfl | he
      · have hx : ∀ y ∈ xs, ¬ (y.id = i) := by
          intro y hy hyi
          exact hnd.1 (by rw [hid, ← hyi]; exact List.mem_map_of_mem _ hy)
        rw [List.filter_cons_of_pos (by simp [hid]),
          List.filter_eq_nil_iff.mpr (by intro y hy; simp [hx y hy])]
      · have hx : ¬ (x.id = i) := by
          intro hxi
          apply hnd.1
          rw [hxi, ← hid]
          exact List.mem_map_of_mem _ he
        rw [List.filter_cons_of_neg (by simp [hx])]
        exact ih hnd.2 he

/-- With pairwise-distinct ids, findById returns the row of a present id. -/
theorem findById_eq {es : List Entity} {e : Entity} {i : Nat}
    (hnd : (es.map (·.id)).Nodup) (he : e ∈ es) (hid : e.id = i) :
    findById es i = some e := by
  unfold findById
  rw [filter_id_eq_singleton hnd he hid]
  rfl

/-- mergeStep0 either leaves the store alone or upgrades the winner row to
PRIVATE. -/
theorem mergeStep0_cases (s : Store) (w l : Nat) :
    mergeStep0 s w l = s ∨ mergeStep0 s w l = updateEntityPrivacy s w PRIVATE := by
  unfold mergeStep0
  cases findById s.entities w with
  | none => exact Or.inl rfl
  | some winner =>
    cases findById s.entities l with
    | none => exact Or.inl rfl
    | some loser =>
      by_cases hc : loser.privacyLevel = PRIVATE ∧ winner.privacyLevel = PUBLIC
      · exact Or.inr (if_pos hc)
      · exact Or.inl (if_neg hc)

/-- When winner and loser both exist and ids are unique, mergeStep0 upgrades
the winner exactly when the loser is PRIVATE and the winner PUBLIC. -/
theorem mergeStep0_spec {s : Store} {w l : Nat} {winner loser : Entity}
    (hnd : (s.entities.map (·.id)).Nodup)
    (hwin : winner ∈ s.entities) (hwid : winner.id = w)
    (hlos : loser ∈ s.entities) (hlid : loser.id = l) :
    mergeStep0 s w l =
      if loser.privacyLevel = PRIVATE ∧ winner.privacyLevel = PUBLIC then
        updateEntityPrivacy s w PRIVATE
      else s := by
  unfold mergeStep0
  rw [findById_eq hnd hwin hwid, findById_eq hnd hlos hlid]

/-- mergeStep0 does not touch the relations table. -/
theorem mergeStep0_relations (s : Store) (w l : Nat) :
    (mergeStep0 s w l).relations = s.relations := by
  rcases mergeStep0_cases s w l with h | h
  · rw [h]
  · rw [h]; rfl

/-- mergeStep0 preserves the sequence of entity ids. -/
theorem mergeStep0_entity_ids (s : Store) (w l : Nat) :
    (mergeStep0 s w l).entities.map (·.id) = s.entities.map (·.id) := by
  rcases mergeStep0_cases s w l with h | h
  · rw [h]
  · rw [h]
    simp only [updateEntityPrivacy, List.map_map]
    apply List.map_congr_left
    intro e _
    by_cases hc : e.id = w <;> simp [hc]

/-- Every surviving entity of mergeStep0 keeps its id, name and type, and its
privacy is only ever raised to PRIVATE, never lowered. -/
theorem mergeStep0_entities_mem (s : Store) (w l : Nat) :
    ∀ e' ∈ (mergeStep0 s w l).entities, ∃ e ∈ s.entities,
      e'.id = e.id ∧ e'.name = e.name ∧ e'.type = e.type ∧
      (e.privacyLevel = PRIVATE → e'.privacyLevel = PRIVATE) := by
  intro e' he'
  rcases mergeStep0_cases s w l with h | h
  · rw [h] at he'
    exact ⟨e', he', rfl, rfl, rfl, fun h => h⟩
  · rw [h] at he'
    simp only [updateEntityPrivacy, List.mem_map] at he'
    obtain ⟨e, he, rfl⟩ := he'
    by_cases hc : e.id = w
    · exact ⟨e, he, by simp [hc], by simp [hc], by simp [hc], by simp [hc]⟩
    · exact ⟨e, he, by simp [hc], by simp [hc], by simp [hc], by simp [hc]⟩

/-- mergeEntities rewrites each relation: a loser-valued endpoint becomes the
winner, everything else is untouched; the relation table keeps its length. -/
theorem mergeEntities_relations (s : Store) (w l : Nat) :
    (mergeEntities s w l).relations =
      s.relations.map (fun r =>
        let r1 := if r.sourceEntityId = l then { r with sourceEntityId := w } else r
        if r1.targetEntityId = l then { r1 with targetEntityId := w } else r1) := by
  unfold mergeEntities mergeStep3 mergeStep2 mergeStep1
  simp only [mergeStep0_relations, List.map_map]
  rfl

/-- The entities surviving mergeEntities are the mergeStep0 rows with the
loser's id filtered out. -/
theorem mergeEntities_entities (s : Store) (w l : Nat) :
    (mergeEntities s w l).entities =
      (mergeStep0 s w l).entities.filter (fun e => e.id ≠ l) := by
  rfl

/-- Two store rows sharing an id are the same row when ids are pairwise
distinct. -/
theorem nodup_id_inj {es : List Entity} {a b : Entity}
    (hnd : (es.map (·.id)).Nodup) (ha : a ∈ es) (hb : b ∈ es)
    (hab : a.id = b.id) : a = b := by
  have h := filter_id_eq_singleton hnd hb rfl
  have ham : a ∈ es.filter (fun x => x.id = b.id) :=
    List.mem_filter.mpr ⟨ha, by simp [hab]⟩
  rw [h] at ham
  simpa using ham

/-- The query.ts merge variant rewrites relations exactly like the schema.ts
variant (it simply skips the privacy step). -/
theorem mergeEntitiesQueryVariant_relations (s : Store) (w l : Nat) :
    (mergeEntitiesQueryVariant s w l).relations =
      s.relations.map (fun r =>
        let r1 := if r.sourceEntityId = l then { r with sourceEntityId := w } else r
        if r1.targetEntityId = l then { r1 with targetEntityId := w } else r1) := by
  unfold mergeEntitiesQueryVariant mergeStep3 mergeStep2 mergeStep1
  simp only [List.map_map]
  rfl

/-- The query.ts merge variant leaves the entity rows verbatim, removing only
those with the loser's id. -/
theorem mergeEntitiesQueryVariant_entities (s : Store) (w l : Nat) :
    (mergeEntitiesQueryVariant s w l).entities =
      s.entities.filter (fun e => e.id ≠ l) := by
  rfl

/-- The endpoint rewrite keeps id, type, description, properties, privacy and
source fields of a relation. -/
theorem rewrite_fields (w l : Nat) (r : Relation) :
    (let r1 := if r.sourceEntityId = l then { r with sourceEntityId := w } else r
     if r1.targetEntityId = l then { r1 with targetEntityId := w } else r1).id = r.id ∧
    (let r1 := if r.sourceEntityId = l then { r with sourceEntityId := w } else r
     if r1.targetEntityId = l then { r1 with targetEntityId := w } else r1).type = r.type ∧
    (let r1 := if r.sourceEntityId = l then { r with sourceEntityId := w } else r
     if r1.targetEntityId = l then { r1 with targetEntityId := w } else r1).description = r.description ∧
    (let r1 := if r.sourceEntityId = l then { r with sourceEntityId := w } else r
     if r1.targetEntityId = l then { r1 with targetEntityId := w } else r1).properties = r.properties ∧
    (let r1 := if r.sourceEntityId = l then { r with sourceEntityId := w } else r
     if r1.targetEntityId = l then { r1 with targetEntityId := w } else r1).privacyLevel = r.privacyLevel ∧
    (let r1 := if r.sourceEntityId = l then { r with sourceEntityId := w } else r
     if r1.targetEntityId = l then { r1 with targetEntityId := w } else r1).sourceEntityId =
      (if r.sourceEntityId = l then w else r.sourceEntityId) ∧
    (let r1 := if r.sourceEntityId = l then { r with sourceEntityId := w } else r
     if r1.targetEntityId = l then { r1 with targetEntityId := w } else r1).targetEntityId =
      (if r.targetEntityId = l then w else r.targetEntityId) := by
  by_cases h1 : r.sourceEntityId = l <;> by_cases h2 : r.targetEntityId = l <;>
    by_cases h3 : w = l <;> simp [h1, h2, h3]

/-- C5: mergeEntities deletes only the loser entity row and drops no
relations. Every relation touching the loser before the merge survives with
the same id, type, description and properties, its loser-valued endpoint
re-pointed to the winner and the other endpoint unchanged; the relation table
keeps its length; no surviving entity has the loser's id; and the winner row
is still present. -/
theorem mergeEntities_preserves_edges (s : Store) (w l : Nat)
    (winner : Entity) (hwm : winner ∈ s.entities) (hwid : winner.id = w)
    (hwl : w ≠ l) :
    ((mergeEntities s w l).relations.length = s.relations.length) ∧
    (∀ r ∈ s.relations, r.sourceEntityId = l ∨ r.targetEntityId = l →
      ∃ r' ∈ (mergeEntities s w l).relations,
        r'.id = r.id ∧ r'.type = r.type ∧ r'.description = r.description ∧
        r'.properties = r.properties ∧
        r'.sourceEntityId = (if r.sourceEntityId = l then w else r.sourceEntityId) ∧
        r'.targetEntityId = (if r.targetEntityId = l then w else r.targetEntityId)) ∧
    (∀ e ∈ (mergeEntities s w l).entities, e.id ≠ l) ∧
    (∃ e ∈ (mergeEntities s w l).entities, e.id = w) := by
  refine ⟨?_, ?_, ?_, ?_⟩
  · rw [mergeEntities_relations]
    exact List.length_map _ _
  · intro r hr _
    refine ⟨_, by rw [mergeEntities_relations]; exact List.mem_map_of_mem _ hr, ?_⟩
    have h := rewrite_fields w l r
    exact ⟨h.1, h.2.1, h.2.2.1, h.2.2.2.1, h.2.2.2.2.2.1, h.2.2.2.2.2.2⟩
  · intro e he
    rw [mergeEntities_entities] at he
    have := List.mem_filter.mp he
    simpa using this.2
  · have hmapped : w ∈ (mergeStep0 s w l).entities.map (·.id) := by
      rw [mergeStep0_entity_ids]
      rw [← hwid]
      exact List.mem_map_of_mem _ hwm
    obtain ⟨e', he', hid'⟩ := List.mem_map.mp hmapped
    refine ⟨e', ?_, hid'⟩
    rw [mergeEntities_entities]
    exact List.mem_filter.mpr ⟨he', by simp [hid', hwl]⟩

/-- Witness store for C5: winner id 1, loser id 2, one relation from the
loser to a third entity. -/
def c5Store : Store :=
  ⟨[⟨1, "Winner", "COMPANY", none, PUBLIC, USER, none, none⟩,
    ⟨2, "Loser", "COMPANY", none, PUBLIC, USER, none, none⟩,
    ⟨3, "Target", "PERSON", none, PUBLIC, USER, none, none⟩],
   [⟨5, 2, 3, "WORKS_AT", none, PUBLIC, USER, none, none⟩]⟩

/-- Witness for C5 at a concrete store. -/
theorem mergeEntities_preserves_edges_witness :
    ((⟨1, "Winner", "COMPANY", none, PUBLIC, USER, none, none⟩ : Entity) ∈ c5Store.entities) ∧
    (⟨1, "Winner", "COMPANY", none, PUBLIC, USER, none, none⟩ : Entity).id = 1 ∧
    (1 : Nat) ≠ 2 ∧
    (mergeEntities c5Store 1 2).relations.length = c5Store.relations.length :=
  ⟨by decide, by decide, by decide,
    (mergeEntities_preserves_edges c5Store 1 2
      ⟨1, "Winner", "COMPANY", none, PUBLIC, USER, none, none⟩
      (by decide) (by decide) (by decide)).1⟩

/-- C10: merging an entity with itself deletes the entity row while leaving
every relation untouched, so relations that referenced it now dangle. -/
theorem mergeEntities_self_dangling (s : Store) (x : Nat) (ent : Entity)
    (_hm : ent ∈ s.entities) (hid : ent.id = x) :
    ((mergeEntities s x x).relations = s.relations) ∧
    (∀ e ∈ (mergeEntities s x x).entities, e.id ≠ x) ∧
    (ent ∉ (mergeEntities s x x).entities) ∧
    (∀ r ∈ s.relations, r ∈ (mergeEntities s x x).relations) := by
  have hrel : (mergeEntities s x x).relations = s.relations := by
    rw [mergeEntities_relations]
    have hpt : ∀ r : Relation,
        (let r1 := if r.sourceEntityId = x then { r with sourceEntityId := x } else r
         if r1.targetEntityId = x then { r1 with targetEntityId := x } else r1) = r := by
      intro r
      cases r with
      | mk i src tgt t d pl st sd pr =>
          by_cases h1 : src = x <;> by_cases h2 : tgt = x <;> simp [h1, h2]
    rw [List.map_congr_left (fun r _ => hpt r)]
    simp
  have hent : ∀ e ∈ (mergeEntities s x x).entities, e.id ≠ x := by
    intro e he
    rw [mergeEntities_entities] at he
    have := List.mem_filter.mp he
    simpa using this.2
  refine ⟨hrel, hent, ?_, ?_⟩
  · intro hcontra
    exact hent ent hcontra hid
  · intro r hr
    rw [hrel]
    exact hr

/-- Witness store for C10: an entity with id 7 and a relation with both
endpoints 7. -/
def c10Store : Store :=
  ⟨[⟨7, "Self", "COMPANY", none, PUBLIC, USER, none, none⟩],
   [⟨9, 7, 7, "SUBSIDIARY_OF", none, PUBLIC, USER, none, none⟩]⟩

/-- Witness for C10: after merging entity 7 with itself, the entity row is
gone while the relation referencing id 7 survives verbatim. -/
theorem mergeEntities_self_dangling_witness :
    ((⟨7, "Self", "COMPANY", none, PUBLIC, USER, none, none⟩ : Entity) ∈ c10Store.entities) ∧
    (⟨7, "Self", "COMPANY", none, PUBLIC, USER, none, none⟩ : Entity).id = 7 ∧
    (mergeEntities c10Store 7 7).relations = c10Store.relations ∧
    (⟨7, "Self", "COMPANY", none, PUBLIC, USER, none, none⟩ : Entity) ∉
      (mergeEntities c10Store 7 7).entities := by
  have h := mergeEntities_self_dangling c10Store 7
    ⟨7, "Self", "COMPANY", none, PUBLIC, USER, none, none⟩ (by decide) (by decide)
  exact ⟨by decide, by decide, h.1, h.2.2.1⟩

/-- Store used to exhibit the observable intermediate state of mergeEntities:
winner id 1, loser id 2, one relation out of the loser and one into it. -/
def c2Store : Store :=
  ⟨[⟨1, "W", "COMPANY", none, PUBLIC, USER, none, none⟩,
    ⟨2, "L", "COMPANY", none, PUBLIC, USER, none, none⟩],
   [⟨10, 2, 1, "WORKS_AT", none, PUBLIC, USER, none, none⟩,
    ⟨11, 1, 2, "WORKS_AT", none, PUBLIC, USER, none, none⟩]⟩

/-- C2 counterexample: mergeEntities is not all-or-nothing. Interrupting it
after its second store write (the source-endpoint rewrite) leaves a state
that is neither the original store nor the fully merged store, so a partial
rewrite is observable. -/
theorem mergeEntities_atomicity_cex :
    (mergeEntitiesSteps c2Store 1 2 2 ≠ c2Store) ∧
    (mergeEntitiesSteps c2Store 1 2 2 ≠ mergeEntities c2Store 1 2) := by
  decide

/-- C2 amended: mergeEntities is four sequential store writes with no
enclosing transaction. An uninterrupted run applies the complete effect, but
a run interrupted between the source-endpoint rewrite and the
target-endpoint rewrite exposes a state where sources are re-pointed, target
endpoints still reference the loser, and the loser row still exists — a
state different from both the initial and the final store. -/
theorem mergeEntities_not_atomic (s : Store) (w l : Nat) (r0 : Relation) (e0 : Entity)
    (hwl : w ≠ l) (hr : r0 ∈ s.relations) (hrs : r0.sourceEntityId = l)
    (he : e0 ∈ s.entities) (hei : e0.id = l) :
    (mergeEntitiesSteps s w l 0 = s) ∧
    (mergeEntitiesSteps s w l 4 = mergeEntities s w l) ∧
    ((mergeEntitiesSteps s w l 2).relations =
      s.relations.map (fun r =>
        if r.sourceEntityId = l then { r with sourceEntityId := w } else r)) ∧
    (mergeEntitiesSteps s w l 2 ≠ s) ∧
    (mergeEntitiesSteps s w l 2 ≠ mergeEntities s w l) := by
  have hrel2 : (mergeEntitiesSteps s w l 2).relations =
      s.relations.map (fun r =>
        if r.sourceEntityId = l then { r with sourceEntityId := w } else r) := by
    show (mergeStep1 (mergeStep0 s w l) w l).relations = _
    unfold mergeStep1
    rw [mergeStep0_relations]
  have hent2 : (mergeEntitiesSteps s w l 2).entities = (mergeStep0 s w l).entities := rfl
  refine ⟨rfl, rfl, hrel2, ?_, ?_⟩
  · intro hc
    have hrc : (mergeEntitiesSteps s w l 2).relations = s.relations := by rw [hc]
    rw [hrel2] at hrc
    have := map_eq_self_of hrc r0 hr
    have hsrc : w = r0.sourceEntityId := by
      rw [if_pos hrs] at this
      have := congrArg Relation.sourceEntityId this
      simpa using this
    exact hwl (hsrc.trans hrs)
  · intro hc
    have hl2 : l ∈ (mergeEntitiesSteps s w l 2).entities.map (·.id) := by
      rw [hent2, mergeStep0_entity_ids, ← hei]
      exact List.mem_map_of_mem _ he
    rw [hc] at hl2
    obtain ⟨e', he', hid'⟩ := List.mem_map.mp hl2
    rw [mergeEntities_entities] at he'
    have := List.mem_filter.mp he'
    have : e'.id ≠ l := by simpa using this.2
    exact this hid'

/-- Witness for the amended C2 at the concrete store. -/
theorem mergeEntities_not_atomic_witness :
    ((1 : Nat) ≠ 2) ∧
    ((⟨10, 2, 1, "WORKS_AT", none, PUBLIC, USER, none, none⟩ : Relation) ∈ c2Store.relations) ∧
    (⟨10, 2, 1, "WORKS_AT", none, PUBLIC, USER, none, none⟩ : Relation).sourceEntityId = 2 ∧
    ((⟨2, "L", "COMPANY", none, PUBLIC, USER, none, none⟩ : Entity) ∈ c2Store.entities) ∧
    (⟨2, "L", "COMPANY", none, PUBLIC, USER, none, none⟩ : Entity).id = 2 ∧
    (mergeEntitiesSteps c2Store 1 2 0 = c2Store) ∧
    (mergeEntitiesSteps c2Store 1 2 2 ≠ c2Store) := by
  have h := mergeEntities_not_atomic c2Store 1 2
    ⟨10, 2, 1, "WORKS_AT", none, PUBLIC, USER, none, none⟩
    ⟨2, "L", "COMPANY", none, PUBLIC, USER, none, none⟩
    (by decide) (by decide) (by decide) (by decide) (by decide)
  exact ⟨by decide, by decide, by decide, by decide, by decide, h.1, h.2.2.2.1⟩

/-- Store used against the C4 privacy-upgrade claim on the query.ts merge
variant: winner id 1 is PUBLIC, loser id 2 is PRIVATE. -/
def c4Store : Store :=
  ⟨[⟨1, "Acme", "COMPANY", none, PUBLIC, USER, none, none⟩,
    ⟨2, "Acme Corp", "COMPANY", none, PRIVATE, USER, none, none⟩],
   []⟩

/-- C4 counterexample: the mergeEntities of src/db/query.ts performs no
privacy upgrade. Merging PUBLIC winner 1 with PRIVATE loser 2 leaves the
surviving winner PUBLIC, so the surviving winner's privacy level is not
PRIVATE as the claim requires. -/
theorem mergePrivacy_cex :
    ((⟨2, "Acme Corp", "COMPANY", none, PRIVATE, USER, none, none⟩ : Entity) ∈
      c4Store.entities) ∧
    (⟨2, "Acme Corp", "COMPANY", none, PRIVATE, USER, none, none⟩ : Entity).privacyLevel
      = PRIVATE ∧
    (mergeEntitiesQueryVariant c4Store 1 2).entities =
      [⟨1, "Acme", "COMPANY", none, PUBLIC, USER, none, none⟩] ∧
    (⟨1, "Acme", "COMPANY", none, PUBLIC, USER, none, none⟩ : Entity).privacyLevel
      ≠ PRIVATE := by
  decide

/-- C4 amended: the schema.ts mergeEntities upgrades the surviving winner to
PRIVATE whenever either side is PRIVATE, and neither merge variant ever
lowers an entity's or relation's privacy level from PRIVATE to PUBLIC; but
the query.ts mergeEntities performs no privacy change at all — every
surviving entity row is one of the original rows, so a PUBLIC winner stays
PUBLIC even when the loser is PRIVATE. -/
theorem mergePrivacy_amended :
    (∀ (s : Store) (w l : Nat) (winner loser : Entity),
      (s.entities.map (·.id)).Nodup → winner ∈ s.entities → winner.id = w →
      loser ∈ s.entities → loser.id = l →
      (winner.privacyLevel = PRIVATE ∨ loser.privacyLevel = PRIVATE) →
      ∀ e ∈ (mergeEntities s w l).entities, e.id = w → e.privacyLevel = PRIVATE) ∧
    (∀ (s : Store) (w l : Nat), ∀ e ∈ (mergeEntitiesQueryVariant s w l).entities,
      e ∈ s.entities) ∧
    (∀ (s : Store) (w l : Nat), ∀ e' ∈ (mergeEntities s w l).entities,
      ∃ e ∈ s.entities, e'.id = e.id ∧
        (e.privacyLevel = PRIVATE → e'.privacyLevel = PRIVATE)) ∧
    (∀ (s : Store) (w l : Nat), ∀ r' ∈ (mergeEntities s w l).relations,
      ∃ r ∈ s.relations, r'.id = r.id ∧ r'.privacyLevel = r.privacyLevel) ∧
    (∀ (s : Store) (w l : Nat), ∀ r' ∈ (mergeEntitiesQueryVariant s w l).relations,
      ∃ r ∈ s.relations, r'.id = r.id ∧ r'.privacyLevel = r.privacyLevel) := by
  refine ⟨?_, ?_, ?_, ?_, ?_⟩
  · intro s w l winner loser hnd hwm hwid hlm hlid hpriv e he hew
    rw [mergeEntities_entities] at he
    have he0 : e ∈ (mergeStep0 s w l).entities := (List.mem_filter.mp he).1
    rw [mergeStep0_spec hnd hwm hwid hlm hlid] at he0
    by_cases hc : loser.privacyLevel = PRIVATE ∧ winner.privacyLevel = PUBLIC
    · rw [if_pos hc] at he0
      simp only [updateEntityPrivacy, List.mem_map] at he0
      obtain ⟨a, _, rfl⟩ := he0
      by_cases hai : a.id = w
      · simp [hai]
      · rw [if_neg hai] at hew ⊢
        exact absurd hew hai
    · rw [if_neg hc] at he0
      have hwinner : winner.privacyLevel = PRIVATE := by
        rcases hpriv with h | h
        · exact h
        · cases hpub : winner.privacyLevel with
          | PRIVATE => rfl
          | PUBLIC => exact absurd ⟨h, hpub⟩ hc
      have : e = winner := nodup_id_inj hnd he0 hwm (hew.trans hwid.symm)
      rw [this]
      exact hwinner
  · intro s w l e he
    rw [mergeEntitiesQueryVariant_entities] at he
    exact (List.mem_filter.mp he).1
  · intro s w l e' he'
    rw [mergeEntities_entities] at he'
    have he0 : e' ∈ (mergeStep0 s w l).entities := (List.mem_filter.mp he').1
    obtain ⟨e, he, h1, _, _, h4⟩ := mergeStep0_entities_mem s w l e' he0
    exact ⟨e, he, h1, h4⟩
  · intro s w l r' hr'
    rw [mergeEntities_relations] at hr'
    obtain ⟨r, hr, rfl⟩ := List.mem_map.mp hr'
    have h := rewrite_fields w l r
    exact ⟨r, hr, h.1, h.2.2.2.2.1⟩
  · intro s w l r' hr'
    rw [mergeEntitiesQueryVariant_relations] at hr'
    obtain ⟨r, hr, rfl⟩ := List.mem_map.mp hr'
    have h := rewrite_fields w l r
    exact ⟨r, hr, h.1, h.2.2.2.2.1⟩

/-- Witness for the amended C4: at the concrete store, the schema.ts variant
upgrades the surviving winner to PRIVATE, and the query.ts variant keeps
surviving rows verbatim. -/
theorem mergePrivacy_amended_witness :
    ((c4Store.entities.map (·.id)).Nodup) ∧
    ((⟨1, "Acme", "COMPANY", none, PUBLIC, USER, none, none⟩ : Entity) ∈ c4Store.entities) ∧
    ((⟨2, "Acme Corp", "COMPANY", none, PRIVATE, USER, none, none⟩ : Entity) ∈ c4Store.entities) ∧
    ((⟨1, "Acme", "COMPANY", none, PRIVATE, USER, none, none⟩ : Entity) ∈
        (mergeEntities c4Store 1 2).entities →
      (⟨1, "Acme", "COMPANY", none, PRIVATE, USER, none, none⟩ : Entity).id = 1 →
      (⟨1, "Acme", "COMPANY", none, PRIVATE, USER, none, none⟩ : Entity).privacyLevel
        = PRIVATE) ∧
    ((⟨1, "Acme", "COMPANY", none, PUBLIC, USER, none, none⟩ : Entity) ∈
        (mergeEntitiesQueryVariant c4Store 1 2).entities →
      (⟨1, "Acme", "COMPANY", none, PUBLIC, USER, none, none⟩ : Entity) ∈
        c4Store.entities) := by
  have h := mergePrivacy_amended
  refine ⟨by decide, by decide, by decide, ?_, ?_⟩
  · exact h.1 c4Store 1 2
      ⟨1, "Acme", "COMPANY", none, PUBLIC, USER, none, none⟩
      ⟨2, "Acme Corp", "COMPANY", none, PRIVATE, USER, none, none⟩
      (by decide) (by decide) (by decide) (by decide) (by decide)
      (Or.inr (by decide))
      ⟨1, "Acme", "COMPANY", none, PRIVATE, USER, none, none⟩
  · exact h.2.1 c4Store 1 2
      ⟨1, "Acme", "COMPANY", none, PUBLIC, USER, none, none⟩

/-- Outcome of processing one gapped entity in a saturation iteration:
generateLinkupQuery returned null (skip via continue), searchLinkup returned
no result (dead end), a result was found and ingested, or an exception was
thrown by query construction, the external search call, or ingestion. -/
inductive EntityOutcome where
  | noQuery
  | noResult
  | found
  | failure
deriving DecidableEq, Repr

/-- The per-entity loop of the /saturate-database handler in src/server.ts
(lines 215-242): each entity's body runs inside try/catch, a failure is
logged via console.error and the loop continues. Returns (saturatedCount,
loggedFailures, processedEntities). -/
def saturateEntityLoopServer (outcomes : List EntityOutcome) : Nat × Nat × Nat :=
  outcomes.foldl
    (fun acc o =>
      match o with
      | EntityOutcome.found => (acc.1 + 1, acc.2.1, acc.2.2 + 1)
      | EntityOutcome.failure => (acc.1, acc.2.1 + 1, acc.2.2 + 1)
      | _ => (acc.1, acc.2.1, acc.2.2 + 1))
    (0, 0, 0)

/-- The per-entity loop of `saturate` in src/unnamed/part_003 (lines 340-370):
the catch block wraps the error and rethrows it, so the loop aborts at the
first failing entity. On success returns (saturatedCount, processedEntities);
on failure returns the number of entities processed before the abort. -/
def saturateEntityLoopThrowing : List EntityOutcome → Nat → Nat → Except Nat (Nat × Nat)
  | [], c, p => Except.ok (c, p)
  | EntityOutcome.failure :: _, _, p => Except.error p
  | EntityOutcome.found :: rest, c, p => saturateEntityLoopThrowing rest (c + 1) (p + 1)
  | EntityOutcome.noQuery :: rest, c, p => saturateEntityLoopThrowing rest c (p + 1)
  | EntityOutcome.noResult :: rest, c, p => saturateEntityLoopThrowing rest c (p + 1)

/-- The iteration loop of `saturate` in src/unnamed/part_003 (lines 333-379):
one entry of `its` per iteration (the gapped-entity outcomes of that
iteration); an error escaping the entity loop propagates out of the whole
call. -/
def saturateThrowing : List (List EntityOutcome) → Nat → Except Nat Nat
  | [], c => Except.ok c
  | it :: rest, c =>
    match saturateEntityLoopThrowing it c 0 with
    | Except.ok (c', _) => saturateThrowing rest c'
    | Except.error p => Except.error p

/-- C3 counterexample: in the part_003 `saturate`, a single failing entity
aborts the iteration and the surrounding loop. With two gapped entities
where the first fails and the second would succeed, the whole call errors
having processed no entity, while the server.ts handler processes both and
saturates one. -/
theorem saturation_perEntity_catch_cex :
    (saturateThrowing [[EntityOutcome.failure, EntityOutcome.found]] 0 = Except.error 0) ∧
    (saturateEntityLoopServer [EntityOutcome.failure, EntityOutcome.found] = (1, 1, 2)) :=
  ⟨rfl, rfl⟩

/-- Helper: the server fold counts found/failure outcomes and processes every
entity, for any starting accumulator. -/
theorem saturateEntityLoopServer_fold (outcomes : List EntityOutcome) :
    ∀ a b p, outcomes.foldl
      (fun acc o =>
        match o with
        | EntityOutcome.found => (acc.1 + 1, acc.2.1, acc.2.2 + 1)
        | EntityOutcome.failure => (acc.1, acc.2.1 + 1, acc.2.2 + 1)
        | _ => (acc.1, acc.2.1, acc.2.2 + 1))
      (a, b, p) =
      (a + outcomes.count EntityOutcome.found,
       b + outcomes.count EntityOutcome.failure,
       p + outcomes.length) := by
  induction outcomes with
  | nil => intro a b p; simp
  | cons o rest ih =>
      intro a b p
      cases o <;>
        simp [List.foldl_cons, ih, List.count_cons] <;> omega

/-- Helper: without failures the throwing entity loop completes, counting
found outcomes. -/
theorem saturateEntityLoopThrowing_ok (outcomes : List EntityOutcome)
    (h : EntityOutcome.failure ∉ outcomes) :
    ∀ c p, saturateEntityLoopThrowing outcomes c p =
      Except.ok (c + outcomes.count EntityOutcome.found, p + outcomes.length) := by
  induction outcomes with
  | nil => intro c p; simp [saturateEntityLoopThrowing]
  | cons o rest ih =>
      intro c p
      rw [List.mem_cons, not_or] at h
      have hrest := ih h.2
      cases o with
      | failure => exact absurd rfl h.1
      | found =>
          rw [saturateEntityLoopThrowing, hrest]
          simp [List.count_cons]
          all_goals omega
      | noQuery =>
          rw [saturateEntityLoopThrowing, hrest]
          simp [List.count_cons]
          all_goals omega
      | noResult =>
          rw [saturateEntityLoopThrowing, hrest]
          simp [List.count_cons]
          all_goals omega

/-- Helper: the throwing entity loop aborts exactly at the first failure. -/
theorem saturateEntityLoopThrowing_aborts (pre post : List EntityOutcome)
    (h : EntityOutcome.failure ∉ pre) :
    ∀ c p, saturateEntityLoopThrowing (pre ++ EntityOutcome.failure :: post) c p =
      Except.error (p + pre.length) := by
  induction pre with
  | nil => intro c p; simp [saturateEntityLoopThrowing]
  | cons o rest ih =>
      intro c p
      rw [List.mem_cons, not_or] at h
      have hrest := ih h.2
      cases o with
      | failure => exact absurd rfl h.1
      | found =>
          rw [List.cons_append, saturateEntityLoopThrowing, hrest]
          simp only [List.length_cons, Except.error.injEq]
          omega
      | noQuery =>
          rw [List.cons_append, saturateEntityLoopThrowing, hrest]
          simp only [List.length_cons, Except.error.injEq]
          omega
      | noResult =>
          rw [List.cons_append, saturateEntityLoopThrowing, hrest]
          simp only [List.length_cons, Except.error.injEq]
          omega

/-- C3 amended: in the server.ts /saturate-database handler every per-entity
exception is caught and logged and every gapped entity is processed, the
saturated count being the number of successful ingestions; in the part_003
`saturate`, the per-entity catch wraps and rethrows, so the loop aborts at
the first failing entity and only failure-free runs complete all
iterations. -/
theorem saturation_perEntity_amended :
    (∀ outcomes : List EntityOutcome,
      saturateEntityLoopServer outcomes =
        (outcomes.count EntityOutcome.found,
         outcomes.count EntityOutcome.failure,
         outcomes.length)) ∧
    (∀ pre post : List EntityOutcome, EntityOutcome.failure ∉ pre →
      ∀ c, saturateEntityLoopThrowing (pre ++ EntityOutcome.failure :: post) c 0 =
        Except.error pre.length) ∧
    (∀ its : List (List EntityOutcome), (∀ it ∈ its, EntityOutcome.failure ∉ it) →
      ∀ c, saturateThrowing its c =
        Except.ok (c + (its.map (fun it => it.count EntityOutcome.found)).sum)) := by
  refine ⟨?_, ?_, ?_⟩
  · intro outcomes
    unfold saturateEntityLoopServer
    rw [saturateEntityLoopServer_fold]
    simp
  · intro pre post h c
    rw [saturateEntityLoopThrowing_aborts pre post h]
    simp
  · intro its
    induction its with
    | nil => intro _ c; simp [saturateThrowing]
    | cons it rest ih =>
        intro h c
        have hit : EntityOutcome.failure ∉ it := h it (List.mem_cons_self it rest)
        have hrest := ih (fun x hx => h x (List.mem_cons_of_mem it hx))
        rw [saturateThrowing, saturateEntityLoopThrowing_ok it hit]
        show saturateThrowing rest (c + it.count EntityOutcome.found) = _
        rw [hrest]
        simp only [List.map_cons, List.sum_cons, Except.ok.injEq]
        omega

/-- Witness for the amended C3 at concrete outcome lists. -/
theorem saturation_perEntity_amended_witness :
    (EntityOutcome.failure ∉ [EntityOutcome.found, EntityOutcome.noResult]) ∧
    (saturateEntityLoopServer [EntityOutcome.found, EntityOutcome.failure] = (1, 1, 2)) ∧
    (saturateEntityLoopThrowing
      ([EntityOutcome.found, EntityOutcome.noResult] ++ EntityOutcome.failure ::
        [EntityOutcome.found]) 0 0 = Except.error 2) := by
  have h := saturation_perEntity_amended
  exact ⟨by decide, h.1 [EntityOutcome.found, EntityOutcome.failure],
    h.2.1 [EntityOutcome.found, EntityOutcome.noResult] [EntityOutcome.found] (by decide) 0⟩

/-- Document shape inserted into the Orama index (EntityDocument in
src/orama.ts): the entity id rendered as a string, name, description (empty
string when null) and type. -/
structure OramaDoc where
  id : String
  name : String
  description : String
  type : String
deriving DecidableEq, Repr

/-- Translation of an entity row to its index document, as in indexEntity
(src/orama.ts lines 40-48): description falls back to the empty string. -/
def toOramaDoc (e : Entity) : OramaDoc :=
  ⟨toString e.id, e.name, e.description.getD "", e.type⟩

/-- getOramaDb (src/orama.ts lines 27-35): if the module-level singleton
already exists return it, otherwise create an empty index and store it.
Returns the index contents and the new singleton state. -/
def getOramaDb (st : Option (List OramaDoc)) : List OramaDoc × Option (List OramaDoc) :=
  match st with
  | some db => (db, some db)
  | none => ([], some [])

/-- The indexing phase of the /merge-nodes handler (src/server.ts lines
144-159): obtain the singleton index and insert one document per current
entity. Returns the index contents visible to the duplicate-search queries of
this invocation, and the singleton state left for the next invocation. -/
def mergeHandlerIndexPhase (st : Option (List OramaDoc)) (entities : List Entity) :
    List OramaDoc × Option (List OramaDoc) :=
  let db := (getOramaDb st).1
  let db' := db ++ entities.map toOramaDoc
  (db', some db')

/-- Successive /merge-nodes invocations threading the singleton state from
one invocation to the next; collects the index contents each invocation
queried. -/
def mergeInvocationsGo : List (List Entity) → Option (List OramaDoc) → List (List OramaDoc)
  | [], _ => []
  | es :: rest, st =>
    let r := mergeHandlerIndexPhase st es
    r.1 :: mergeInvocationsGo rest r.2

/-- Successive /merge-nodes invocations with the given entity sets, starting
from a fresh process (singleton not yet created). Returns the index contents
each invocation queried. -/
def runMergeInvocations (entSets : List (List Entity)) : List (List OramaDoc) :=
  mergeInvocationsGo entSets none

/-- Entity rows for the C6 counterexample: two entities in the first
invocation, only the first surviving into the second invocation. -/
def c6First : Entity := ⟨1, "Orama Inc", "COMPANY", none, PUBLIC, USER, none, none⟩

/-- The entity that exists only during the first merge invocation. -/
def c6Second : Entity := ⟨2, "Orama Incorporated", "COMPANY", none, PUBLIC, USER, none, none⟩

/-- C6 counterexample: the Orama index is a process-global singleton that is
never cleared. In the second /merge-nodes invocation — after entity 2 was
deleted — the queried index still contains entity 2's document and contains
entity 1's document twice, so it does not hold exactly one document per
currently existing entity. -/
theorem oramaIndex_fresh_cex :
    (runMergeInvocations [[c6First, c6Second], [c6First]] =
      [[toOramaDoc c6First, toOramaDoc c6Second],
       [toOramaDoc c6First, toOramaDoc c6Second, toOramaDoc c6First]]) ∧
    (toOramaDoc c6Second ∉ [c6First].map toOramaDoc) := by
  constructor
  · rfl
  · decide

/-- Helper: the invocation sequence has one queried index per invocation. -/
theorem mergeInvocationsGo_length :
    ∀ (sets : List (List Entity)) (st : Option (List OramaDoc)),
      (mergeInvocationsGo sets st).length = sets.length := by
  intro sets
  induction sets with
  | nil => intro st; rfl
  | cons es rest ih =>
      intro st
      rw [mergeInvocationsGo]
      simp [ih]

/-- Helper: starting from singleton contents `acc`, invocation `i` queries
`acc` followed by the documents of all entity sets up to and including its
own. -/
theorem mergeInvocationsGo_get :
    ∀ (sets : List (List Entity)) (acc : List OramaDoc) (i : Nat)
      (h : i < (mergeInvocationsGo sets (some acc)).length),
      (mergeInvocationsGo sets (some acc)).get ⟨i, h⟩ =
        acc ++ ((sets.take (i + 1)).map (fun es => es.map toOramaDoc)).flatten := by
  intro sets
  induction sets with
  | nil =>
      intro acc i h
      rw [mergeInvocationsGo_length] at h
      exact absurd h (Nat.not_lt_zero i)
  | cons es rest ih =>
      intro acc i h
      cases i with
      | zero => simp [mergeInvocationsGo, mergeHandlerIndexPhase, getOramaDb]
      | succ j =>
          have hj : j < (mergeInvocationsGo rest (some (acc ++ es.map toOramaDoc))).length := by
            rw [mergeInvocationsGo_length]
            rw [mergeInvocationsGo_length] at h
            exact Nat.lt_of_succ_lt_succ h
          have step : (mergeInvocationsGo (es :: rest) (some acc)).get ⟨j + 1, h⟩ =
              (mergeInvocationsGo rest (some (acc ++ es.map toOramaDoc))).get ⟨j, hj⟩ := rfl
          rw [step, ih]
          simp [List.flatten]

/-- C6 amended: within one process the index queried by the i-th
/merge-nodes invocation is the concatenation of the entity documents of
every invocation so far — only the first invocation queries an index holding
exactly the current entity set; later invocations also see every document
indexed by earlier invocations, including entities meanwhile deleted. -/
theorem oramaIndex_accumulates (entSets : List (List Entity)) :
    ((runMergeInvocations entSets).length = entSets.length) ∧
    (∀ i, ∀ h : i < (runMergeInvocations entSets).length,
      (runMergeInvocations entSets).get ⟨i, h⟩ =
        ((entSets.take (i + 1)).map (fun es => es.map toOramaDoc)).flatten) := by
  cases entSets with
  | nil =>
      refine ⟨rfl, ?_⟩
      intro i h
      exact absurd h (Nat.not_lt_zero i)
  | cons es rest =>
      constructor
      · show (mergeInvocationsGo (es :: rest) none).length = _
        rw [mergeInvocationsGo_length]
      · intro i h
        cases i with
        | zero =>
            show es.map toOramaDoc = _
            simp [List.flatten]
        | succ j =>
            have hj : j < (mergeInvocationsGo rest (some (es.map toOramaDoc))).length := by
              rw [mergeInvocationsGo_length]
              have : j + 1 < (runMergeInvocations (es :: rest)).length := h
              rw [show (runMergeInvocations (es :: rest)).length = rest.length + 1 from by
                show (mergeInvocationsGo (es :: rest) none).length = _
                rw [mergeInvocationsGo_length]
                rfl] at this
              exact Nat.lt_of_succ_lt_succ this
            show (mergeInvocationsGo rest (some (es.map toOramaDoc))).get ⟨j, hj⟩ = _
            rw [mergeInvocationsGo_get]
            simp [List.flatten]

/-- Witness for the amended C6 at the concrete two-invocation run. -/
theorem oramaIndex_accumulates_witness :
    (runMergeInvocations [[c6First, c6Second], [c6First]]).length = 2 :=
  (oramaIndex_accumulates [[c6First, c6Second], [c6First]]).1

/-- Subquery of findEntitiesWithMissingRelations (src/db/schema.ts lines
740-743): source ids of relations of the given type. -/
def entitiesWithOutRelation (s : Store) (R : String) : List Nat :=
  (s.relations.filter (fun r => r.type = R)).map (·.sourceEntityId)

/-- Subquery (src/db/schema.ts lines 768-771): target ids of relations of the
given type. -/
def entitiesWithInRelation (s : Store) (R : String) : List Nat :=
  (s.relations.filter (fun r => r.type = R)).map (·.targetEntityId)

/-- Entities of the given type that are not the source of any relation of
type R (src/db/schema.ts lines 745-753). -/
def entitiesMissingOut (s : Store) (T R : String) : List Entity :=
  s.entities.filter (fun e => e.type = T && !((entitiesWithOutRelation s R).contains e.id))

/-- Entities of the given type that are not the target of any relation of
type R (src/db/schema.ts lines 773-781). -/
def entitiesMissingIn (s : Store) (T R : String) : List Entity :=
  s.entities.filter (fun e => e.type = T && !((entitiesWithInRelation s R).contains e.id))

/-- Value stored per entity id in the tempMap of
findEntitiesWithMissingRelations: the entity row and its accumulated missing
incoming/outgoing relation types (JS Sets, modelled as dedup-on-insert
lists). -/
structure GapEntry where
  entity : Entity
  inRelationTypes : List String
  outRelationTypes : List String
deriving DecidableEq, Repr

/-- JS `Set.add` on a list of strings: append unless present. -/
def setAddStr (l : List String) (x : String) : List String :=
  if l.contains x then l else l ++ [x]

/-- The tempMap update for a missing outgoing relation (src/db/schema.ts
lines 755-764): create the entry on first sight, then add R to its outgoing
set. -/
def addOut (tm : List (Nat × GapEntry)) (e : Entity) (R : String) : List (Nat × GapEntry) :=
  if tm.any (fun p => p.1 = e.id) then
    tm.map (fun p => if p.1 = e.id then
      (p.1, ⟨p.2.entity, p.2.inRelationTypes, setAddStr p.2.outRelationTypes R⟩) else p)
  else tm ++ [(e.id, ⟨e, [], [R]⟩)]

/-- The tempMap update for a missing incoming relation (src/db/schema.ts
lines 783-792). -/
def addIn (tm : List (Nat × GapEntry)) (e : Entity) (R : String) : List (Nat × GapEntry) :=
  if tm.any (fun p => p.1 = e.id) then
    tm.map (fun p => if p.1 = e.id then
      (p.1, ⟨p.2.entity, setAddStr p.2.inRelationTypes R, p.2.outRelationTypes⟩) else p)
  else tm ++ [(e.id, ⟨e, [R], []⟩)]

/-- The body of the inner loop of findEntitiesWithMissingRelations for one
(entityType, relationType) pair: record the missing-outgoing batch, then the
missing-incoming batch. -/
def processPattern (s : Store) (T R : String) (tm : List (Nat × GapEntry)) :
    List (Nat × GapEntry) :=
  (entitiesMissingIn s T R).foldl (fun t e => addIn t e R)
    ((entitiesMissingOut s T R).foldl (fun t e => addOut t e R) tm)

/-- findEntitiesWithMissingRelations (src/db/schema.ts lines 719-812): loop
over the patterns map, accumulate the tempMap, return its values. -/
def findEntitiesWithMissingRelations (s : Store)
    (patterns : List (String × List String)) : List GapEntry :=
  (patterns.foldl (fun tm p => p.2.foldl (fun t R => processPattern s p.1 R t) tm) []).map (·.2)

/-- Semantic reading of a missing outgoing relation: no relation of type R
has this entity as its source. -/
def missingOut (s : Store) (e : Entity) (R : String) : Prop :=
  ∀ r ∈ s.relations, r.type = R → r.sourceEntityId ≠ e.id

/-- Semantic reading of a missing incoming relation. -/
def missingIn (s : Store) (e : Entity) (R : String) : Prop :=
  ∀ r ∈ s.relations, r.type = R → r.targetEntityId ≠ e.id

/-- The patterns map associates entity type T with relation type R. -/
def patternsHas (patterns : List (String × List String)) (T R : String) : Prop :=
  ∃ p ∈ patterns, p.1 = T ∧ R ∈ p.2

/-- Membership of R in some tempMap entry whose entity has this id, seen
through the outgoing set. -/
def OutP (tm : List (Nat × GapEntry)) (e : Entity) (R : String) : Prop :=
  ∃ p ∈ tm, p.2.entity.id = e.id ∧ R ∈ p.2.outRelationTypes

/-- Membership through the incoming set. -/
def InP (tm : List (Nat × GapEntry)) (e : Entity) (R : String) : Prop :=
  ∃ p ∈ tm, p.2.entity.id = e.id ∧ R ∈ p.2.inRelationTypes

/-- Keys of the tempMap agree with the stored entities' ids and every stored
entity is a store row. -/
def tmConsistent (s : Store) (tm : List (Nat × GapEntry)) : Prop :=
  ∀ p ∈ tm, p.1 = p.2.entity.id ∧ p.2.entity ∈ s.entities

/-- Membership in a JS-Set insertion. -/
theorem setAddStr_mem (l : List String) (x y : String) :
    y ∈ setAddStr l x ↔ y ∈ l ∨ y = x := by
  unfold setAddStr
  by_cases h : l.contains x
  · rw [if_pos h]
    have hx : x ∈ l := by simpa using h
    constructor
    · exact Or.inl
    · rintro (hy | rfl)
      · exact hy
      · exact hx
  · rw [if_neg h]
    simp

/-- A JS-Set insertion never produces the empty set. -/
theorem setAddStr_ne_nil (l : List String) (x : String) : setAddStr l x ≠ [] := by
  unfold setAddStr
  by_cases h : l.contains x
  · rw [if_pos h]
    intro hnil
    rw [hnil] at h
    simp at h
  · rw [if_neg h]
    simp

/-- Effect of addOut on outgoing-set membership. -/
theorem addOut_OutP (tm : List (Nat × GapEntry)) (e : Entity) (R : String)
    (hcons : ∀ p ∈ tm, p.1 = p.2.entity.id) (x : Entity) (R' : String) :
    OutP (addOut tm e R) x R' ↔ OutP tm x R' ∨ (x.id = e.id ∧ R' = R) := by
  unfold addOut OutP
  by_cases h : tm.any (fun p => p.1 = e.id)
  · rw [if_pos h]
    have he : ∃ p ∈ tm, p.1 = e.id := by simpa using h
    constructor
    · rintro ⟨q, hq, hqid, hqR⟩
      rw [List.mem_map] at hq
      obtain ⟨p, hp, heq⟩ := hq
      by_cases hpe : p.1 = e.id
      · rw [if_pos hpe] at heq
        rw [← heq] at hqid hqR
        simp only at hqid hqR
        rw [setAddStr_mem] at hqR
        rcases hqR with hold | rfl
        · exact Or.inl ⟨p, hp, hqid, hold⟩
        · exact Or.inr ⟨by rw [← hqid, ← (hcons p hp), hpe], rfl⟩
      · rw [if_neg hpe] at heq
        rw [← heq] at hqid hqR
        exact Or.inl ⟨p, hp, hqid, hqR⟩
    · rintro (⟨p, hp, hpid, hpR⟩ | ⟨hxe, hRR⟩)
      · by_cases hpe : p.1 = e.id
        · refine ⟨(p.1, ⟨p.2.entity, p.2.inRelationTypes, setAddStr p.2.outRelationTypes R⟩),
            ?_, hpid, ?_⟩
          · rw [List.mem_map]
            exact ⟨p, hp, by rw [if_pos hpe]⟩
          · rw [setAddStr_mem]
            exact Or.inl hpR
        · refine ⟨p, ?_, hpid, hpR⟩
          rw [List.mem_map]
          exact ⟨p, hp, by rw [if_neg hpe]⟩
      · obtain ⟨p, hp, hpe⟩ := he
        refine ⟨(p.1, ⟨p.2.entity, p.2.inRelationTypes, setAddStr p.2.outRelationTypes R⟩),
          ?_, ?_, ?_⟩
        · rw [List.mem_map]
          exact ⟨p, hp, by rw [if_pos hpe]⟩
        · simp only
          rw [← (hcons p hp), hpe, hxe]
        · rw [setAddStr_mem]
          exact Or.inr hRR
  · rw [if_neg h]
    constructor
    · rintro ⟨q, hq, hqid, hqR⟩
      rw [List.mem_append] at hq
      rcases hq with hq | hq
      · exact Or.inl ⟨q, hq, hqid, hqR⟩
      · rw [List.mem_singleton] at hq
        rw [hq] at hqid hqR
        simp only at hqid hqR
        rw [List.mem_singleton] at hqR
        exact Or.inr ⟨hqid.symm ▸ rfl, hqR⟩
    · rintro (⟨p, hp, hpid, hpR⟩ | ⟨hxe, hRR⟩)
      · exact ⟨p, List.mem_append.mpr (Or.inl hp), hpid, hpR⟩
      · exact ⟨(e.id, ⟨e, [], [R]⟩), List.mem_append.mpr (Or.inr (List.mem_singleton.mpr rfl)),
          hxe.symm, List.mem_singleton.mpr hRR⟩

/-- addOut leaves incoming-set membership unchanged. -/
theorem addOut_InP (tm : List (Nat × GapEntry)) (e : Entity) (R : String)
    (x : Entity) (R' : String) :
    InP (addOut tm e R) x R' ↔ InP tm x R' := by
  unfold addOut InP
  by_cases h : tm.any (fun p => p.1 = e.id)
  · rw [if_pos h]
    constructor
    · rintro ⟨q, hq, hqid, hqR⟩
      rw [List.mem_map] at hq
      obtain ⟨p, hp, heq⟩ := hq
      by_cases hpe : p.1 = e.id
      · rw [if_pos hpe] at heq
        rw [← heq] at hqid hqR
        exact ⟨p, hp, hqid, hqR⟩
      · rw [if_neg hpe] at heq
        rw [← heq] at hqid hqR
        exact ⟨p, hp, hqid, hqR⟩
    · rintro ⟨p, hp, hpid, hpR⟩
      by_cases hpe : p.1 = e.id
      · refine ⟨(p.1, ⟨p.2.entity, p.2.inRelationTypes, setAddStr p.2.outRelationTypes R⟩),
          ?_, hpid, hpR⟩
        rw [List.mem_map]
        exact ⟨p, hp, by rw [if_pos hpe]⟩
      · refine ⟨p, ?_, hpid, hpR⟩
        rw [List.mem_map]
        exact ⟨p, hp, by rw [if_neg hpe]⟩
  · rw [if_neg h]
    constructor
    · rintro ⟨q, hq, hqid, hqR⟩
      rw [List.mem_append] at hq
      rcases hq with hq | hq
      · exact ⟨q, hq, hqid, hqR⟩
      · rw [List.mem_singleton] at hq
        rw [hq] at hqR
        simp at hqR
    · rintro ⟨p, hp, hpid, hpR⟩
      exact ⟨p, List.mem_append.mpr (Or.inl hp), hpid, hpR⟩

/-- Effect of addIn on incoming-set membership. -/
theorem addIn_InP (tm : List (Nat × GapEntry)) (e : Entity) (R : String)
    (hcons : ∀ p ∈ tm, p.1 = p.2.entity.id) (x : Entity) (R' : String) :
    InP (addIn tm e R) x R' ↔ InP tm x R' ∨ (x.id = e.id ∧ R' = R) := by
  unfold addIn InP
  by_cases h : tm.any (fun p => p.1 = e.id)
  · rw [if_pos h]
    have he : ∃ p ∈ tm, p.1 = e.id := by simpa using h
    constructor
    · rintro ⟨q, hq, hqid, hqR⟩
      rw [List.mem_map] at hq
      obtain ⟨p, hp, heq⟩ := hq
      by_cases hpe : p.1 = e.id
      · rw [if_pos hpe] at heq
        rw [← heq] at hqid hqR
        simp only at hqid hqR
        rw [setAddStr_mem] at hqR
        rcases hqR with hold | rfl
        · exact Or.inl ⟨p, hp, hqid, hold⟩
        · exact Or.inr ⟨by rw [← hqid, ← (hcons p hp), hpe], rfl⟩
      · rw [if_neg hpe] at heq
        rw [← heq] at hqid hqR
        exact Or.inl ⟨p, hp, hqid, hqR⟩
    · rintro (⟨p, hp, hpid, hpR⟩ | ⟨hxe, hRR⟩)
      · by_cases hpe : p.1 = e.id
        · refine ⟨(p.1, ⟨p.2.entity, setAddStr p.2.inRelationTypes R, p.2.outRelationTypes⟩),
            ?_, hpid, ?_⟩
          · rw [List.mem_map]
            exact ⟨p, hp, by rw [if_pos hpe]⟩
          · rw [setAddStr_mem]
            exact Or.inl hpR
        · refine ⟨p, ?_, hpid, hpR⟩
          rw [List.mem_map]
          exact ⟨p, hp, by rw [if_neg hpe]⟩
      · obtain ⟨p, hp, hpe⟩ := he
        refine ⟨(p.1, ⟨p.2.entity, setAddStr p.2.inRelationTypes R, p.2.outRelationTypes⟩),
          ?_, ?_, ?_⟩
        · rw [List.mem_map]
          exact ⟨p, hp, by rw [if_pos hpe]⟩
        · simp only
          rw [← (hcons p hp), hpe, hxe]
        · rw [setAddStr_mem]
          exact Or.inr hRR
  · rw [if_neg h]
    constructor
    · rintro ⟨q, hq, hqid, hqR⟩
      rw [List.mem_append] at hq
      rcases hq with hq | hq
      · exact Or.inl ⟨q, hq, hqid, hqR⟩
      · rw [List.mem_singleton] at hq
        rw [hq] at hqid hqR
        simp only at hqid hqR
        rw [List.mem_singleton] at hqR
        exact Or.inr ⟨hqid.symm ▸ rfl, hqR⟩
    · rintro (⟨p, hp, hpid, hpR⟩ | ⟨hxe, hRR⟩)
      · exact ⟨p, List.mem_append.mpr (Or.inl hp), hpid, hpR⟩
      · exact ⟨(e.id, ⟨e, [R], []⟩), List.mem_append.mpr (Or.inr (List.mem_singleton.mpr rfl)),
          hxe.symm, List.mem_singleton.mpr hRR⟩

/-- addIn leaves outgoing-set membership unchanged. -/
theorem addIn_OutP (tm : List (Nat × GapEntry)) (e : Entity) (R : String)
    (x : Entity) (R' : String) :
    OutP (addIn tm e R) x R' ↔ OutP tm x R' := by
  unfold addIn OutP
  by_cases h : tm.any (fun p => p.1 = e.id)
  · rw [if_pos h]
    constructor
    · rintro ⟨q, hq, hqid, hqR⟩
      rw [List.mem_map] at hq
      obtain ⟨p, hp, heq⟩ := hq
      by_cases hpe : p.1 = e.id
      · rw [if_pos hpe] at heq
        rw [← heq] at hqid hqR
        exact ⟨p, hp, hqid, hqR⟩
      · rw [if_neg hpe] at heq
        rw [← heq] at hqid hqR
        exact ⟨p, hp, hqid, hqR⟩
    · rintro ⟨p, hp, hpid, hpR⟩
      by_cases hpe : p.1 = e.id
      · refine ⟨(p.1, ⟨p.2.entity, setAddStr p.2.inRelationTypes R, p.2.outRelationTypes⟩),
          ?_, hpid, hpR⟩
        rw [List.mem_map]
        exact ⟨p, hp, by rw [if_pos hpe]⟩
      · refine ⟨p, ?_, hpid, hpR⟩
        rw [List.mem_map]
        exact ⟨p, hp, by rw [if_neg hpe]⟩
  · rw [if_neg h]
    constructor
    · rintro ⟨q, hq, hqid, hqR⟩
      rw [List.mem_append] at hq
      rcases hq with hq | hq
      · exact ⟨q, hq, hqid, hqR⟩
      · rw [List.mem_singleton] at hq
        rw [hq] at hqR
        simp at hqR
    · rintro ⟨p, hp, hpid, hpR⟩
      exact ⟨p, List.mem_append.mpr (Or.inl hp), hpid, hpR⟩

/-- addOut keeps key/entity consistency. -/
theorem addOut_consistent (s : Store) (tm : List (Nat × GapEntry)) (e : Entity) (R : String)
    (hc : tmConsistent s tm) (he : e ∈ s.entities) :
    tmConsistent s (addOut tm e R) := by
  unfold addOut tmConsistent
  by_cases h : tm.any (fun p => p.1 = e.id)
  · rw [if_pos h]
    intro q hq
    rw [List.mem_map] at hq
    obtain ⟨p, hp, heq⟩ := hq
    by_cases hpe : p.1 = e.id
    · rw [if_pos hpe] at heq
      rw [← heq]
      exact ⟨(hc p hp).1, (hc p hp).2⟩
    · rw [if_neg hpe] at heq
      rw [← heq]
      exact hc p hp
  · rw [if_neg h]
    intro q hq
    rw [List.mem_append] at hq
    rcases hq with hq | hq
    · exact hc q hq
    · rw [List.mem_singleton] at hq
      rw [hq]
      exact ⟨rfl, he⟩

/-- addIn keeps key/entity consistency. -/
theorem addIn_consistent (s : Store) (tm : List (Nat × GapEntry)) (e : Entity) (R : String)
    (hc : tmConsistent s tm) (he : e ∈ s.entities) :
    tmConsistent s (addIn tm e R) := by
  unfold addIn tmConsistent
  by_cases h : tm.any (fun p => p.1 = e.id)
  · rw [if_pos h]
    intro q hq
    rw [List.mem_map] at hq
    obtain ⟨p, hp, heq⟩ := hq
    by_cases hpe : p.1 = e.id
    · rw [if_pos hpe] at heq
      rw [← heq]
      exact ⟨(hc p hp).1, (hc p hp).2⟩
    · rw [if_neg hpe] at heq
      rw [← heq]
      exact hc p hp
  · rw [if_neg h]
    intro q hq
    rw [List.mem_append] at hq
    rcases hq with hq | hq
    · exact hc q hq
    · rw [List.mem_singleton] at hq
      rw [hq]
      exact ⟨rfl, he⟩

/-- addOut keeps every entry's missing sets jointly nonempty. -/
theorem addOut_nonempty (tm : List (Nat × GapEntry)) (e : Entity) (R : String)
    (hn : ∀ p ∈ tm, p.2.outRelationTypes ≠ [] ∨ p.2.inRelationTypes ≠ []) :
    ∀ p ∈ addOut tm e R, p.2.outRelationTypes ≠ [] ∨ p.2.inRelationTypes ≠ [] := by
  unfold addOut
  by_cases h : tm.any (fun p => p.1 = e.id)
  · rw [if_pos h]
    intro q hq
    rw [List.mem_map] at hq
    obtain ⟨p, hp, heq⟩ := hq
    by_cases hpe : p.1 = e.id
    · rw [if_pos hpe] at heq
      rw [← heq]
      exact Or.inl (setAddStr_ne_nil _ _)
    · rw [if_neg hpe] at heq
      rw [← heq]
      exact hn p hp
  · rw [if_neg h]
    intro q hq
    rw [List.mem_append] at hq
    rcases hq with hq | hq
    · exact hn q hq
    · rw [List.mem_singleton] at hq
      rw [hq]
      exact Or.inl (by simp)

/-- addIn keeps every entry's missing sets jointly nonempty. -/
theorem addIn_nonempty (tm : List (Nat × GapEntry)) (e : Entity) (R : String)
    (hn : ∀ p ∈ tm, p.2.outRelationTypes ≠ [] ∨ p.2.inRelationTypes ≠ []) :
    ∀ p ∈ addIn tm e R, p.2.outRelationTypes ≠ [] ∨ p.2.inRelationTypes ≠ [] := by
  unfold addIn
  by_cases h : tm.any (fun p => p.1 = e.id)
  · rw [if_pos h]
    intro q hq
    rw [List.mem_map] at hq
    obtain ⟨p, hp, heq⟩ := hq
    by_cases hpe : p.1 = e.id
    · rw [if_pos hpe] at heq
      rw [← heq]
      exact Or.inr (setAddStr_ne_nil _ _)
    · rw [if_neg hpe] at heq
      rw [← heq]
      exact hn p hp
  · rw [if_neg h]
    intro q hq
    rw [List.mem_append] at hq
    rcases hq with hq | hq
    · exact hn q hq
    · rw [List.mem_singleton] at hq
      rw [hq]
      exact Or.inr (by simp)

/-- tmConsistent gives the key/id half used by the add lemmas. -/
theorem tmConsistent_keys {s : Store} {tm : List (Nat × GapEntry)}
    (hc : tmConsistent s tm) : ∀ p ∈ tm, p.1 = p.2.entity.id :=
  fun p hp => (hc p hp).1

/-- Folding addOut over a batch of store entities preserves consistency. -/
theorem foldl_addOut_consistent (s : Store) (R : String) :
    ∀ (batch : List Entity) (tm : List (Nat × GapEntry)),
      (∀ x ∈ batch, x ∈ s.entities) → tmConsistent s tm →
      tmConsistent s (batch.foldl (fun t x => addOut t x R) tm) := by
  intro batch
  induction batch with
  | nil => intro tm _ hc; exact hc
  | cons x rest ih =>
      intro tm hb hc
      rw [List.foldl_cons]
      exact ih _ (fun y hy => hb y (List.mem_cons_of_mem x hy))
        (addOut_consistent s tm x R hc (hb x (List.mem_cons_self x rest)))

/-- Folding addIn over a batch of store entities preserves consistency. -/
theorem foldl_addIn_consistent (s : Store) (R : String) :
    ∀ (batch : List Entity) (tm : List (Nat × GapEntry)),
      (∀ x ∈ batch, x ∈ s.entities) → tmConsistent s tm →
      tmConsistent s (batch.foldl (fun t x => addIn t x R) tm) := by
  intro batch
  induction batch with
  | nil => intro tm _ hc; exact hc
  | cons x rest ih =>
      intro tm hb hc
      rw [List.foldl_cons]
      exact ih _ (fun y hy => hb y (List.mem_cons_of_mem x hy))
        (addIn_consistent s tm x R hc (hb x (List.mem_cons_self x rest)))

/-- Effect of an addOut batch on outgoing-set membership. -/
theorem foldl_addOut_OutP (s : Store) (R : String) (x : Entity) (R' : String) :
    ∀ (batch : List Entity) (tm : List (Nat × GapEntry)), tmConsistent s tm →
      (∀ y ∈ batch, y ∈ s.entities) →
      (OutP (batch.foldl (fun t y => addOut t y R) tm) x R' ↔
        OutP tm x R' ∨ ((∃ y ∈ batch, x.id = y.id) ∧ R' = R)) := by
  intro batch
  induction batch with
  | nil =>
      intro tm _ _
      simp
  | cons y rest ih =>
      intro tm hc hb
      rw [List.foldl_cons,
        ih _ (addOut_consistent s tm y R hc (hb y (List.mem_cons_self y rest)))
          (fun z hz => hb z (List.mem_cons_of_mem y hz)),
        addOut_OutP tm y R (tmConsistent_keys hc) x R']
      constructor
      · rintro ((h | ⟨hid, hR⟩) | ⟨⟨z, hz, hid⟩, hR⟩)
        · exact Or.inl h
        · exact Or.inr ⟨⟨y, List.mem_cons_self y rest, hid⟩, hR⟩
        · exact Or.inr ⟨⟨z, List.mem_cons_of_mem y hz, hid⟩, hR⟩
      · rintro (h | ⟨⟨z, hz, hid⟩, hR⟩)
        · exact Or.inl (Or.inl h)
        · rw [List.mem_cons] at hz
          rcases hz with rfl | hz
          · exact Or.inl (Or.inr ⟨hid, hR⟩)
          · exact Or.inr ⟨⟨z, hz, hid⟩, hR⟩

/-- An addOut batch leaves incoming-set membership unchanged. -/
theorem foldl_addOut_InP (R : String) (x : Entity) (R' : String) :
    ∀ (batch : List Entity) (tm : List (Nat × GapEntry)),
      (InP (batch.foldl (fun t y => addOut t y R) tm) x R' ↔ InP tm x R') := by
  intro batch
  induction batch with
  | nil => intro tm; exact Iff.rfl
  | cons y rest ih =>
      intro tm
      rw [List.foldl_cons, ih, addOut_InP]

/-- Effect of an addIn batch on incoming-set membership. -/
theorem foldl_addIn_InP (s : Store) (R : String) (x : Entity) (R' : String) :
    ∀ (batch : List Entity) (tm : List (Nat × GapEntry)), tmConsistent s tm →
      (∀ y ∈ batch, y ∈ s.entities) →
      (InP (batch.foldl (fun t y => addIn t y R) tm) x R' ↔
        InP tm x R' ∨ ((∃ y ∈ batch, x.id = y.id) ∧ R' = R)) := by
  intro batch
  induction batch with
  | nil =>
      intro tm _ _
      simp
  | cons y rest ih =>
      intro tm hc hb
      rw [List.foldl_cons,
        ih _ (addIn_consistent s tm y R hc (hb y (List.mem_cons_self y rest)))
          (fun z hz => hb z (List.mem_cons_of_mem y hz)),
        addIn_InP tm y R (tmConsistent_keys hc) x R']
      constructor
      · rintro ((h | ⟨hid, hR⟩) | ⟨⟨z, hz, hid⟩, hR⟩)
        · exact Or.inl h
        · exact Or.inr ⟨⟨y, List.mem_cons_self y rest, hid⟩, hR⟩
        · exact Or.inr ⟨⟨z, List.mem_cons_of_mem y hz, hid⟩, hR⟩
      · rintro (h | ⟨⟨z, hz, hid⟩, hR⟩)
        · exact Or.inl (Or.inl h)
        · rw [List.mem_cons] at hz
          rcases hz with rfl | hz
          · exact Or.inl (Or.inr ⟨hid, hR⟩)
          · exact Or.inr ⟨⟨z, hz, hid⟩, hR⟩

/-- An addIn batch leaves outgoing-set membership unchanged. -/
theorem foldl_addIn_OutP (R : String) (x : Entity) (R' : String) :
    ∀ (batch : List Entity) (tm : List (Nat × GapEntry)),
      (OutP (batch.foldl (fun t y => addIn t y R) tm) x R' ↔ OutP tm x R') := by
  intro batch
  induction batch with
  | nil => intro tm; exact Iff.rfl
  | cons y rest ih =>
      intro tm
      rw [List.foldl_cons, ih, addIn_OutP]

/-- Both batches of a pattern draw their entities from the store. -/
theorem entitiesMissingOut_sub (s : Store) (T R : String) :
    ∀ x ∈ entitiesMissingOut s T R, x ∈ s.entities := by
  intro x hx
  exact (List.mem_filter.mp hx).1

/-- The missing-incoming batch also draws from the store. -/
theorem entitiesMissingIn_sub (s : Store) (T R : String) :
    ∀ x ∈ entitiesMissingIn s T R, x ∈ s.entities := by
  intro x hx
  exact (List.mem_filter.mp hx).1

/-- With unique entity ids, membership of a store entity's id in the
missing-outgoing batch is the semantic gap condition. -/
theorem mem_entitiesMissingOut_iff (s : Store) (T R : String) (e : Entity)
    (hnd : (s.entities.map (·.id)).Nodup) (he : e ∈ s.entities) :
    (∃ y ∈ entitiesMissingOut s T R, e.id = y.id) ↔ (e.type = T ∧ missingOut s e R) := by
  constructor
  · rintro ⟨y, hy, hid⟩
    have hmem := List.mem_filter.mp hy
    have hye : y = e := nodup_id_inj hnd hmem.1 he hid.symm
    rw [hye] at hmem
    have hcond := hmem.2
    simp only [Bool.and_eq_true, decide_eq_true_eq, Bool.not_eq_true'] at hcond
    refine ⟨hcond.1, ?_⟩
    intro r hr hrt hrs
    have hin : e.id ∈ entitiesWithOutRelation s R := by
      unfold entitiesWithOutRelation
      rw [List.mem_map]
      exact ⟨r, List.mem_filter.mpr ⟨hr, by simp [hrt]⟩, hrs⟩
    have hcontra : (entitiesWithOutRelation s R).contains e.id = true :=
      List.elem_eq_true_of_mem hin
    rw [hcond.2] at hcontra
    cases hcontra
  · rintro ⟨hT, hmiss⟩
    refine ⟨e, ?_, rfl⟩
    unfold entitiesMissingOut
    rw [List.mem_filter]
    refine ⟨he, ?_⟩
    simp only [Bool.and_eq_true, decide_eq_true_eq, Bool.not_eq_true']
    refine ⟨hT, ?_⟩
    rw [Bool.eq_false_iff]
    intro hcont
    have := List.mem_of_elem_eq_true hcont
    unfold entitiesWithOutRelation at this
    rw [List.mem_map] at this
    obtain ⟨r, hr, hrs⟩ := this
    have hmemr := List.mem_filter.mp hr
    exact hmiss r hmemr.1 (by simpa using hmemr.2) hrs

/-- Incoming counterpart of the previous lemma. -/
theorem mem_entitiesMissingIn_iff (s : Store) (T R : String) (e : Entity)
    (hnd : (s.entities.map (·.id)).Nodup) (he : e ∈ s.entities) :
    (∃ y ∈ entitiesMissingIn s T R, e.id = y.id) ↔ (e.type = T ∧ missingIn s e R) := by
  constructor
  · rintro ⟨y, hy, hid⟩
    have hmem := List.mem_filter.mp hy
    have hye : y = e := nodup_id_inj hnd hmem.1 he hid.symm
    rw [hye] at hmem
    have hcond := hmem.2
    simp only [Bool.and_eq_true, decide_eq_true_eq, Bool.not_eq_true'] at hcond
    refine ⟨hcond.1, ?_⟩
    intro r hr hrt hrs
    have hin : e.id ∈ entitiesWithInRelation s R := by
      unfold entitiesWithInRelation
      rw [List.mem_map]
      exact ⟨r, List.mem_filter.mpr ⟨hr, by simp [hrt]⟩, hrs⟩
    have hcontra : (entitiesWithInRelation s R).contains e.id = true :=
      List.elem_eq_true_of_mem hin
    rw [hcond.2] at hcontra
    cases hcontra
  · rintro ⟨hT, hmiss⟩
    refine ⟨e, ?_, rfl⟩
    unfold entitiesMissingIn
    rw [List.mem_filter]
    refine ⟨he, ?_⟩
    simp only [Bool.and_eq_true, decide_eq_true_eq, Bool.not_eq_true']
    refine ⟨hT, ?_⟩
    rw [Bool.eq_false_iff]
    intro hcont
    have := List.mem_of_elem_eq_true hcont
    unfold entitiesWithInRelation at this
    rw [List.mem_map] at this
    obtain ⟨r, hr, hrs⟩ := this
    have hmemr := List.mem_filter.mp hr
    exact hmiss r hmemr.1 (by simpa using hmemr.2) hrs

/-- The nested pattern loops are one fold over the flattened
(entityType, relationType) pair list. -/
theorem nested_foldl_eq (s : Store) :
    ∀ (patterns : List (String × List String)) (init : List (Nat × GapEntry)),
      patterns.foldl (fun tm p => p.2.foldl (fun t R => processPattern s p.1 R t) tm) init =
        (patterns.flatMap (fun p => p.2.map (fun R => (p.1, R)))).foldl
          (fun t q => processPattern s q.1 q.2 t) init := by
  intro patterns
  induction patterns with
  | nil => intro init; rfl
  | cons p rest ih =>
      intro init
      rw [List.foldl_cons, ih, List.flatMap_cons, List.foldl_append, List.foldl_map]

/-- processPattern preserves tempMap consistency. -/
theorem processPattern_consistent (s : Store) (T R : String)
    (tm : List (Nat × GapEntry)) (hc : tmConsistent s tm) :
    tmConsistent s (processPattern s T R tm) := by
  unfold processPattern
  exact foldl_addIn_consistent s R _ _ (entitiesMissingIn_sub s T R)
    (foldl_addOut_consistent s R _ _ (entitiesMissingOut_sub s T R) hc)

/-- The pair fold preserves tempMap consistency. -/
theorem foldl_pairs_consistent (s : Store) :
    ∀ (pairs : List (String × String)) (tm : List (Nat × GapEntry)),
      tmConsistent s tm →
      tmConsistent s (pairs.foldl (fun t q => processPattern s q.1 q.2 t) tm) := by
  intro pairs
  induction pairs with
  | nil => intro tm hc; exact hc
  | cons q rest ih =>
      intro tm hc
      rw [List.foldl_cons]
      exact ih _ (processPattern_consistent s q.1 q.2 tm hc)

/-- Effect of the pair fold on outgoing-set membership. -/
theorem foldl_pairs_OutP (s : Store) (x : Entity) (R' : String) :
    ∀ (pairs : List (String × String)) (tm : List (Nat × GapEntry)),
      tmConsistent s tm →
      (OutP (pairs.foldl (fun t q => processPattern s q.1 q.2 t) tm) x R' ↔
        OutP tm x R' ∨
          ∃ q ∈ pairs, (∃ y ∈ entitiesMissingOut s q.1 q.2, x.id = y.id) ∧ R' = q.2) := by
  intro pairs
  induction pairs with
  | nil =>
      intro tm _
      simp
  | cons q rest ih =>
      intro tm hc
      rw [List.foldl_cons, ih _ (processPattern_consistent s q.1 q.2 tm hc)]
      unfold processPattern
      rw [foldl_addIn_OutP,
        foldl_addOut_OutP s q.2 x R' _ tm hc (entitiesMissingOut_sub s q.1 q.2)]
      constructor
      · rintro ((h | h) | ⟨z, hz, hzz⟩)
        · exact Or.inl h
        · exact Or.inr ⟨q, List.mem_cons_self q rest, h⟩
        · exact Or.inr ⟨z, List.mem_cons_of_mem q hz, hzz⟩
      · rintro (h | ⟨z, hz, hzz⟩)
        · exact Or.inl (Or.inl h)
        · rw [List.mem_cons] at hz
          rcases hz with rfl | hz
          · exact Or.inl (Or.inr hzz)
          · exact Or.inr ⟨z, hz, hzz⟩

/-- Effect of the pair fold on incoming-set membership. -/
theorem foldl_pairs_InP (s : Store) (x : Entity) (R' : String) :
    ∀ (pairs : List (String × String)) (tm : List (Nat × GapEntry)),
      tmConsistent s tm →
      (InP (pairs.foldl (fun t q => processPattern s q.1 q.2 t) tm) x R' ↔
        InP tm x R' ∨
          ∃ q ∈ pairs, (∃ y ∈ entitiesMissingIn s q.1 q.2, x.id = y.id) ∧ R' = q.2) := by
  intro pairs
  induction pairs with
  | nil =>
      intro tm _
      simp
  | cons q rest ih =>
      intro tm hc
      rw [List.foldl_cons, ih _ (processPattern_consistent s q.1 q.2 tm hc)]
      unfold processPattern
      rw [foldl_addIn_InP s q.2 x R' _ _
          (foldl_addOut_consistent s q.2 _ tm (entitiesMissingOut_sub s q.1 q.2) hc)
          (entitiesMissingIn_sub s q.1 q.2),
        foldl_addOut_InP]
      constructor
      · rintro ((h | h) | ⟨z, hz, hzz⟩)
        · exact Or.inl h
        · exact Or.inr ⟨q, List.mem_cons_self q rest, h⟩
        · exact Or.inr ⟨z, List.mem_cons_of_mem q hz, hzz⟩
      · rintro (h | ⟨z, hz, hzz⟩)
        · exact Or.inl (Or.inl h)
        · rw [List.mem_cons] at hz
          rcases hz with rfl | hz
          · exact Or.inl (Or.inr hzz)
          · exact Or.inr ⟨z, hz, hzz⟩

/-- An addOut batch keeps every entry's sets jointly nonempty. -/
theorem foldl_addOut_nonempty (R : String) :
    ∀ (batch : List Entity) (tm : List (Nat × GapEntry)),
      (∀ p ∈ tm, p.2.outRelationTypes ≠ [] ∨ p.2.inRelationTypes ≠ []) →
      ∀ p ∈ batch.foldl (fun t y => addOut t y R) tm,
        p.2.outRelationTypes ≠ [] ∨ p.2.inRelationTypes ≠ [] := by
  intro batch
  induction batch with
  | nil => intro tm hn; exact hn
  | cons y rest ih =>
      intro tm hn
      rw [List.foldl_cons]
      exact ih _ (addOut_nonempty tm y R hn)

/-- An addIn batch keeps every entry's sets jointly nonempty. -/
theorem foldl_addIn_nonempty (R : String) :
    ∀ (batch : List Entity) (tm : List (Nat × GapEntry)),
      (∀ p ∈ tm, p.2.outRelationTypes ≠ [] ∨ p.2.inRelationTypes ≠ []) →
      ∀ p ∈ batch.foldl (fun t y => addIn t y R) tm,
        p.2.outRelationTypes ≠ [] ∨ p.2.inRelationTypes ≠ [] := by
  intro batch
  induction batch with
  | nil => intro tm hn; exact hn
  | cons y rest ih =>
      intro tm hn
      rw [List.foldl_cons]
      exact ih _ (addIn_nonempty tm y R hn)

/-- The pair fold keeps every entry's sets jointly nonempty. -/
theorem foldl_pairs_nonempty (s : Store) :
    ∀ (pairs : List (String × String)) (tm : List (Nat × GapEntry)),
      (∀ p ∈ tm, p.2.outRelationTypes ≠ [] ∨ p.2.inRelationTypes ≠ []) →
      ∀ p ∈ pairs.foldl (fun t q => processPattern s q.1 q.2 t) tm,
        p.2.outRelationTypes ≠ [] ∨ p.2.inRelationTypes ≠ [] := by
  intro pairs
  induction pairs with
  | nil => intro tm hn; exact hn
  | cons q rest ih =>
      intro tm hn
      rw [List.foldl_cons]
      refine ih _ ?_
      unfold processPattern
      exact foldl_addIn_nonempty q.2 _ _ (foldl_addOut_nonempty q.2 _ _ hn)

/-- Pair-list membership is the patterns-map association. -/
theorem pairs_mem_iff (patterns : List (String × List String)) (T R : String) :
    (T, R) ∈ patterns.flatMap (fun p => p.2.map (fun R => (p.1, R))) ↔
      patternsHas patterns T R := by
  unfold patternsHas
  rw [List.mem_flatMap]
  constructor
  · rintro ⟨p, hp, hm⟩
    rw [List.mem_map] at hm
    obtain ⟨R₀, hR₀, heq⟩ := hm
    rw [Prod.mk.injEq] at heq
    exact ⟨p, hp, heq.1, heq.2 ▸ hR₀⟩
  · rintro ⟨p, hp, h1, h2⟩
    refine ⟨p, hp, ?_⟩
    rw [List.mem_map]
    exact ⟨R, h2, by rw [h1]⟩

/-- C8: gap detection is sound and complete with respect to the patterns map.
A store entity appears in the result with relation type R in its outgoing
(missing) set iff the patterns map associates the entity's type with R and no
relation of type R has the entity as its source; symmetrically for the
incoming set with the entity as target; and any entity appearing in the
result has at least one missing relation type in some direction. -/
theorem findEntitiesWithMissingRelations_iff (s : Store)
    (patterns : List (String × List String)) (e : Entity) (R : String)
    (hnd : (s.entities.map (·.id)).Nodup) (he : e ∈ s.entities) :
    ((∃ g ∈ findEntitiesWithMissingRelations s patterns,
        g.entity.id = e.id ∧ R ∈ g.outRelationTypes) ↔
      (patternsHas patterns e.type R ∧ missingOut s e R)) ∧
    ((∃ g ∈ findEntitiesWithMissingRelations s patterns,
        g.entity.id = e.id ∧ R ∈ g.inRelationTypes) ↔
      (patternsHas patterns e.type R ∧ missingIn s e R)) ∧
    ((∃ g ∈ findEntitiesWithMissingRelations s patterns, g.entity.id = e.id) →
      ∃ T, patternsHas patterns e.type T ∧ (missingOut s e T ∨ missingIn s e T)) := by
  have hcons0 : tmConsistent s ([] : List (Nat × GapEntry)) := by
    intro p hp
    cases hp
  have hresult : ∀ P : GapEntry → Prop,
      (∃ g ∈ findEntitiesWithMissingRelations s patterns, P g) ↔
      (∃ p ∈ (patterns.flatMap (fun p => p.2.map (fun R => (p.1, R)))).foldl
          (fun t q => processPattern s q.1 q.2 t) [], P p.2) := by
    intro P
    unfold findEntitiesWithMissingRelations
    rw [nested_foldl_eq]
    constructor
    · rintro ⟨g, hg, hP⟩
      rw [List.mem_map] at hg
      obtain ⟨p, hp, rfl⟩ := hg
      exact ⟨p, hp, hP⟩
    · rintro ⟨p, hp, hP⟩
      exact ⟨p.2, List.mem_map_of_mem _ hp, hP⟩
  have houtIff : ∀ R' : String,
      ((∃ g ∈ findEntitiesWithMissingRelations s patterns,
          g.entity.id = e.id ∧ R' ∈ g.outRelationTypes) ↔
        (patternsHas patterns e.type R' ∧ missingOut s e R')) := by
    intro R'
    rw [hresult (fun g => g.entity.id = e.id ∧ R' ∈ g.outRelationTypes)]
    have hOutP := foldl_pairs_OutP s e R'
      (patterns.flatMap (fun p => p.2.map (fun R => (p.1, R)))) [] hcons0
    unfold OutP at hOutP
    rw [hOutP]
    constructor
    · rintro (⟨p, hp, _⟩ | ⟨q, hq, hbatch, rfl⟩)
      · cases hp
      · have := (mem_entitiesMissingOut_iff s q.1 q.2 e hnd he).mp hbatch
        refine ⟨?_, this.2⟩
        rw [this.1]
        exact (pairs_mem_iff patterns q.1 q.2).mp (by
          have : q = (q.1, q.2) := rfl
          rw [← this]
          exact hq)
    · rintro ⟨hpat, hmiss⟩
      refine Or.inr ⟨(e.type, R'), ?_, ?_, rfl⟩
      · exact (pairs_mem_iff patterns e.type R').mpr hpat
      · exact (mem_entitiesMissingOut_iff s e.type R' e hnd he).mpr ⟨rfl, hmiss⟩
  have hinIff : ∀ R' : String,
      ((∃ g ∈ findEntitiesWithMissingRelations s patterns,
          g.entity.id = e.id ∧ R' ∈ g.inRelationTypes) ↔
        (patternsHas patterns e.type R' ∧ missingIn s e R')) := by
    intro R'
    rw [hresult (fun g => g.entity.id = e.id ∧ R' ∈ g.inRelationTypes)]
    have hInP := foldl_pairs_InP s e R'
      (patterns.flatMap (fun p => p.2.map (fun R => (p.1, R)))) [] hcons0
    unfold InP at hInP
    rw [hInP]
    constructor
    · rintro (⟨p, hp, _⟩ | ⟨q, hq, hbatch, rfl⟩)
      · cases hp
      · have := (mem_entitiesMissingIn_iff s q.1 q.2 e hnd he).mp hbatch
        refine ⟨?_, this.2⟩
        rw [this.1]
        exact (pairs_mem_iff patterns q.1 q.2).mp (by
          have : q = (q.1, q.2) := rfl
          rw [← this]
          exact hq)
    · rintro ⟨hpat, hmiss⟩
      refine Or.inr ⟨(e.type, R'), ?_, ?_, rfl⟩
      · exact (pairs_mem_iff patterns e.type R').mpr hpat
      · exact (mem_entitiesMissingIn_iff s e.type R' e hnd he).mpr ⟨rfl, hmiss⟩
  refine ⟨houtIff R, hinIff R, ?_⟩
  rintro ⟨g, hg, hid⟩
  have hgm := hg
  unfold findEntitiesWithMissingRelations at hgm
  rw [nested_foldl_eq] at hgm
  rw [List.mem_map] at hgm
  obtain ⟨p, hp, rfl⟩ := hgm
  have hne := foldl_pairs_nonempty s
    (patterns.flatMap (fun p => p.2.map (fun R => (p.1, R)))) [] (by intro q hq; cases hq)
    p hp
  rcases hne with hne | hne
  · obtain ⟨R₀, hR₀⟩ := List.exists_mem_of_ne_nil _ hne
    have : ∃ g ∈ findEntitiesWithMissingRelations s patterns,
        g.entity.id = e.id ∧ R₀ ∈ g.outRelationTypes := ⟨p.2, hg, hid, hR₀⟩
    have h := (houtIff R₀).mp this
    exact ⟨R₀, h.1, Or.inl h.2⟩
  · obtain ⟨R₀, hR₀⟩ := List.exists_mem_of_ne_nil _ hne
    have : ∃ g ∈ findEntitiesWithMissingRelations s patterns,
        g.entity.id = e.id ∧ R₀ ∈ g.inRelationTypes := ⟨p.2, hg, hid, hR₀⟩
    have h := (hinIff R₀).mp this
    exact ⟨R₀, h.1, Or.inr h.2⟩

/-- Witness store for C8: companies 1 and 2 have outgoing HAS_HEADQUARTERS,
company 3 does not. -/
def c8Store : Store :=
  ⟨[⟨1, "A", "COMPANY", none, PUBLIC, USER, none, none⟩,
    ⟨2, "B", "COMPANY", none, PUBLIC, USER, none, none⟩,
    ⟨3, "C", "COMPANY", none, PUBLIC, USER, none, none⟩,
    ⟨4, "HQ1", "PARTY", none, PUBLIC, USER, none, none⟩,
    ⟨5, "HQ2", "PARTY", none, PUBLIC, USER, none, none⟩],
   [⟨10, 1, 4, "HAS_HEADQUARTERS", none, PUBLIC, USER, none, none⟩,
    ⟨11, 2, 5, "HAS_HEADQUARTERS", none, PUBLIC, USER, none, none⟩]⟩

/-- Witness for C8: company 3 is flagged for a missing outgoing
HAS_HEADQUARTERS under the pattern map {COMPANY: [HAS_HEADQUARTERS]}. -/
theorem findEntitiesWithMissingRelations_iff_witness :
    ((c8Store.entities.map (·.id)).Nodup) ∧
    ((⟨3, "C", "COMPANY", none, PUBLIC, USER, none, none⟩ : Entity) ∈ c8Store.entities) ∧
    ((∃ g ∈ findEntitiesWithMissingRelations c8Store [("COMPANY", ["HAS_HEADQUARTERS"])],
        g.entity.id = 3 ∧ "HAS_HEADQUARTERS" ∈ g.outRelationTypes) ↔
      (patternsHas [("COMPANY", ["HAS_HEADQUARTERS"])] "COMPANY" "HAS_HEADQUARTERS" ∧
        missingOut c8Store ⟨3, "C", "COMPANY", none, PUBLIC, USER, none, none⟩
          "HAS_HEADQUARTERS")) := by
  refine ⟨by decide, by decide, ?_⟩
  exact (findEntitiesWithMissingRelations_iff c8Store [("COMPANY", ["HAS_HEADQUARTERS"])]
    ⟨3, "C", "COMPANY", none, PUBLIC, USER, none, none⟩ "HAS_HEADQUARTERS"
    (by decide) (by decide)).1

/-- The privacyFilter of getGraphContext (src/db/schema.ts lines 448-453)
applied to an entity row: a PUBLIC query sees only PUBLIC rows, a PRIVATE
query sees everything. -/
def entityVisible (lvl : PrivacyLevel) (e : Entity) : Bool :=
  match lvl with
  | PUBLIC => e.privacyLevel = PUBLIC
  | PRIVATE => true

/-- The privacyFilter applied to a relation row. -/
def relationVisible (lvl : PrivacyLevel) (r : Relation) : Bool :=
  match lvl with
  | PUBLIC => r.privacyLevel = PUBLIC
  | PRIVATE => true

/-- Node shape returned by getGraphContext (GraphNode in src/types). -/
structure GraphNode where
  id : Nat
  name : String
  type : String
  description : Option String
  privacyLevel : PrivacyLevel
deriving DecidableEq, Repr

/-- Edge shape returned by getGraphContext (GraphEdge in src/types). -/
structure GraphEdge where
  id : Nat
  source : Nat
  target : Nat
  type : String
  description : Option String
  properties : Option String
  privacyLevel : PrivacyLevel
deriving DecidableEq, Repr

/-- Projection used by nodesMap.set in getGraphContext. -/
def toGraphNode (e : Entity) : GraphNode :=
  ⟨e.id, e.name, e.type, e.description, e.privacyLevel⟩

/-- Projection used by edgesMap.set in getGraphContext. -/
def toGraphEdge (r : Relation) : GraphEdge :=
  ⟨r.id, r.sourceEntityId, r.targetEntityId, r.type, r.description, r.properties,
    r.privacyLevel⟩

/-- JS `Map.set`: overwrite the value at an existing key in place, otherwise
append the pair. -/
def mapSet {α : Type} (m : List (Nat × α)) (k : Nat) (v : α) : List (Nat × α) :=
  if m.any (fun p => p.1 = k) then
    m.map (fun p => if p.1 = k then (k, v) else p)
  else m ++ [(k, v)]

/-- JS `Set.add` on numbers: append unless present. -/
def setAddNat (v : List Nat) (x : Nat) : List Nat :=
  if v.contains x then v else v ++ [x]

/-- The mutable state of getGraphContext: currentLevelIds, visitedNodeIds,
nodesMap, edgesMap, plus a ghost accumulator of every relation row fetched by
the per-round relation query (it influences nothing and exists only to state
properties about fetched relations). -/
structure GCState where
  cur : List Nat
  visited : List Nat
  nodes : List (Nat × GraphNode)
  edges : List (Nat × GraphEdge)
  fetched : List Relation
deriving Repr

/-- The initial-node fetch of getGraphContext (src/db/schema.ts lines
455-480): seed rows passing the privacy filter become the first frontier,
the visited set and the first nodesMap entries. -/
def gcInit (s : Store) (seeds : List Nat) (lvl : PrivacyLevel) : GCState :=
  let initialNodes := s.entities.filter
    (fun e => seeds.contains e.id && entityVisible lvl e)
  let cur := initialNodes.map (·.id)
  ⟨cur,
   cur.foldl setAddNat [],
   initialNodes.foldl (fun m e => mapSet m e.id (toGraphNode e)) [],
   [],
   []⟩

/-- The per-round relation fetch of getGraphContext (src/db/schema.ts lines
486-497): relations with an endpoint in the frontier, privacy-filtered. -/
def gcRelevant (s : Store) (lvl : PrivacyLevel) (cur : List Nat) : List Relation :=
  s.relations.filter (fun r =>
    (cur.contains r.sourceEntityId || cur.contains r.targetEntityId) &&
      relationVisible lvl r)

/-- The nextLevelIds collection (src/db/schema.ts lines 499-524): unvisited
endpoints of the fetched relations, in encounter order with duplicates. -/
def gcNextIds (visited : List Nat) (rels : List Relation) : List Nat :=
  rels.foldl (fun acc r =>
    let acc1 := if visited.contains r.sourceEntityId then acc
      else acc ++ [r.sourceEntityId]
    if visited.contains r.targetEntityId then acc1
    else acc1 ++ [r.targetEntityId]) []

/-- Array.from(new Set(nextLevelIds)) (src/db/schema.ts line 527). -/
def gcUniqueNext (visited : List Nat) (rels : List Relation) : List Nat :=
  (gcNextIds visited rels).foldl setAddNat []

/-- The neighbor-entity fetch (src/db/schema.ts lines 529-539). -/
def gcNewNodes (s : Store) (lvl : PrivacyLevel) (uniqueIds : List Nat) : List Entity :=
  s.entities.filter (fun e => uniqueIds.contains e.id && entityVisible lvl e)

/-- The edge-admission pass (src/db/schema.ts lines 554-570 and 595-612): an
edge enters the edgesMap iff both endpoints are in the visited set. -/
def gcAddEdges (vis : List Nat) (rels : List Relation)
    (m : List (Nat × GraphEdge)) : List (Nat × GraphEdge) :=
  rels.foldl (fun m r =>
    if vis.contains r.sourceEntityId && vis.contains r.targetEntityId then
      mapSet m r.id (toGraphEdge r)
    else m) m

/-- One round of the depth loop of getGraphContext (src/db/schema.ts lines
482-615): fetch relations touching the frontier, collect unvisited neighbor
ids, fetch the visible neighbors, admit edges whose two endpoints are
visited, and either continue from the new nodes or add the remaining edges
and stop. The Bool is false when the JS loop executes `break`. -/
def gcRound (s : Store) (lvl : PrivacyLevel) (st : GCState) : GCState × Bool :=
  let relevantRelations := gcRelevant s lvl st.cur
  let uniqueNextLevelIds := gcUniqueNext st.visited relevantRelations
  if uniqueNextLevelIds.isEmpty then
    (⟨st.cur, st.visited, st.nodes,
      gcAddEdges st.visited relevantRelations st.edges,
      st.fetched ++ relevantRelations⟩, false)
  else
    let newNodes := gcNewNodes s lvl uniqueNextLevelIds
    let visited' := newNodes.foldl (fun v e => setAddNat v e.id) st.visited
    (⟨newNodes.map (·.id),
      visited',
      newNodes.foldl (fun m e => mapSet m e.id (toGraphNode e)) st.nodes,
      gcAddEdges visited' relevantRelations st.edges,
      st.fetched ++ relevantRelations⟩, true)

/-- The depth loop of getGraphContext: up to `depth` rounds, stopping early
on an empty frontier or when a round breaks. -/
def gcLoop (s : Store) (lvl : PrivacyLevel) : Nat → GCState → GCState
  | 0, st => st
  | d + 1, st =>
    if st.cur.isEmpty then st
    else
      let r := gcRound s lvl st
      if r.2 then gcLoop s lvl d r.1 else r.1

/-- Full traversal state of getGraphContext after the loop. -/
def getGraphContextState (s : Store) (seeds : List Nat) (depth : Nat)
    (lvl : PrivacyLevel) : GCState :=
  gcLoop s lvl depth (gcInit s seeds lvl)

/-- Return shape of getGraphContext. -/
structure GraphData where
  nodes : List GraphNode
  edges : List GraphEdge
deriving DecidableEq, Repr

/-- getGraphContext (src/db/schema.ts lines 437-621): the privacy-filtered
breadth-first traversal, returning the collected nodesMap and edgesMap
values. -/
def getGraphContext (s : Store) (seeds : List Nat) (depth : Nat)
    (lvl : PrivacyLevel) : GraphData :=
  let st := getGraphContextState s seeds depth lvl
  ⟨st.nodes.map (·.2), st.edges.map (·.2)⟩

/-- Membership in a JS-Set insertion of a number. -/
theorem setAddNat_mem (v : List Nat) (x j : Nat) :
    j ∈ setAddNat v x ↔ j ∈ v ∨ j = x := by
  unfold setAddNat
  by_cases h : v.contains x
  · rw [if_pos h]
    have hx : x ∈ v := by simpa using h
    constructor
    · exact Or.inl
    · rintro (hy | rfl)
      · exact hy
      · exact hx
  · rw [if_neg h]
    simp

/-- Membership after folding JS-Set insertions of a list of numbers. -/
theorem foldl_setAddNat_mem (xs : List Nat) :
    ∀ (v : List Nat) (j : Nat), j ∈ xs.foldl setAddNat v ↔ j ∈ v ∨ j ∈ xs := by
  induction xs with
  | nil => intro v j; simp
  | cons x rest ih =>
      intro v j
      rw [List.foldl_cons, ih, setAddNat_mem]
      constructor
      · rintro ((h | rfl) | h)
        · exact Or.inl h
        · exact Or.inr (List.mem_cons_self j rest)
        · exact Or.inr (List.mem_cons_of_mem x h)
      · rintro (h | h)
        · exact Or.inl (Or.inl h)
        · rw [List.mem_cons] at h
          rcases h with rfl | h
          · exact Or.inl (Or.inr rfl)
          · exact Or.inr h

/-- Membership after folding JS-Set insertions of entity ids. -/
theorem foldl_setAddNat_ids_mem (es : List Entity) :
    ∀ (v : List Nat) (j : Nat),
      (j ∈ es.foldl (fun v e => setAddNat v e.id) v ↔ j ∈ v ∨ ∃ e ∈ es, e.id = j) := by
  induction es with
  | nil => intro v j; simp
  | cons e rest ih =>
      intro v j
      rw [List.foldl_cons, ih, setAddNat_mem]
      constructor
      · rintro ((h | rfl) | ⟨x, hx, hj⟩)
        · exact Or.inl h
        · exact Or.inr ⟨e, List.mem_cons_self e rest, rfl⟩
        · exact Or.inr ⟨x, List.mem_cons_of_mem e hx, hj⟩
      · rintro (h | ⟨x, hx, hj⟩)
        · exact Or.inl (Or.inl h)
        · rw [List.mem_cons] at hx
          rcases hx with rfl | hx
          · exact Or.inl (Or.inr hj.symm)
          · exact Or.inr ⟨x, hx, hj⟩

/-- Decomposition of membership after a JS-Map write. -/
theorem mapSet_mem_of {α : Type} {m : List (Nat × α)} {k : Nat} {v : α}
    {q : Nat × α} (hq : q ∈ mapSet m k v) :
    q = (k, v) ∨ (q ∈ m ∧ q.1 ≠ k) := by
  unfold mapSet at hq
  by_cases h : m.any (fun p => p.1 = k)
  · rw [if_pos h] at hq
    rw [List.mem_map] at hq
    obtain ⟨p, hp, heq⟩ := hq
    by_cases hpk : p.1 = k
    · rw [if_pos hpk] at heq
      exact Or.inl heq.symm
    · rw [if_neg hpk] at heq
      exact Or.inr ⟨heq ▸ hp, heq ▸ hpk⟩
  · rw [if_neg h] at hq
    rw [List.mem_append] at hq
    rcases hq with hq | hq
    · have hk : ∀ p ∈ m, ¬ (p.1 = k) := by
        intro p hp hpk
        apply h
        rw [List.any_eq_true]
        exact ⟨p, hp, by simpa using hpk⟩
      exact Or.inr ⟨hq, hk q hq⟩
    · rw [List.mem_singleton] at hq
      exact Or.inl hq

/-- A JS-Map write makes its own pair a member. -/
theorem mapSet_mem_self {α : Type} (m : List (Nat × α)) (k : Nat) (v : α) :
    (k, v) ∈ mapSet m k v := by
  unfold mapSet
  by_cases h : m.any (fun p => p.1 = k)
  · rw [if_pos h]
    have : ∃ p ∈ m, p.1 = k := by simpa using h
    obtain ⟨p, hp, hpk⟩ := this
    rw [List.mem_map]
    exact ⟨p, hp, by rw [if_pos hpk]⟩
  · rw [if_neg h]
    exact List.mem_append.mpr (Or.inr (List.mem_singleton.mpr rfl))

/-- A JS-Map write keeps every pair under a different key. -/
theorem mapSet_mem_other {α : Type} {m : List (Nat × α)} {q : Nat × α}
    (hq : q ∈ m) {k : Nat} (hne : q.1 ≠ k) (v : α) : q ∈ mapSet m k v := by
  unfold mapSet
  by_cases h : m.any (fun p => p.1 = k)
  · rw [if_pos h]
    rw [List.mem_map]
    exact ⟨q, hq, by rw [if_neg hne]⟩
  · rw [if_neg h]
    exact List.mem_append.mpr (Or.inl hq)

/-- A JS-Map write at a fresh key is an append. -/
theorem mapSet_fresh {α : Type} {m : List (Nat × α)} {k : Nat}
    (h : ∀ p ∈ m, p.1 ≠ k) (v : α) : mapSet m k v = m ++ [(k, v)] := by
  have hno : m.any (fun p => p.1 = k) = false := by
    rw [List.any_eq_false]
    intro p hp
    simpa using h p hp
  unfold mapSet
  rw [hno]
  simp

/-- Characterization of the nodesMap fold over a batch of fresh, distinct
entities: it appends one pair per entity. -/
theorem foldl_mapSet_nodes_mem :
    ∀ (batch : List Entity) (m : List (Nat × GraphNode)),
      (batch.map (·.id)).Nodup → (∀ e ∈ batch, ∀ p ∈ m, p.1 ≠ e.id) →
      ∀ q, (q ∈ batch.foldl (fun m e => mapSet m e.id (toGraphNode e)) m ↔
        q ∈ m ∨ ∃ e ∈ batch, q = (e.id, toGraphNode e)) := by
  intro batch
  induction batch with
  | nil => intro m _ _ q; simp
  | cons e rest ih =>
      intro m hnd hfresh q
      rw [List.map_cons, List.nodup_cons] at hnd
      have hfr : ∀ p ∈ m, p.1 ≠ e.id :=
        fun p hp => hfresh e (List.mem_cons_self e rest) p hp
      rw [List.foldl_cons, mapSet_fresh hfr (toGraphNode e)]
      have hfresh' : ∀ x ∈ rest, ∀ p ∈ m ++ [(e.id, toGraphNode e)], p.1 ≠ x.id := by
        intro x hx p hp
        rw [List.mem_append] at hp
        rcases hp with hp | hp
        · exact hfresh x (List.mem_cons_of_mem e hx) p hp
        · rw [List.mem_singleton] at hp
          rw [hp]
          intro hcontra
          have hcc : e.id = x.id := hcontra
          exact hnd.1 (by rw [hcc]; exact List.mem_map_of_mem _ hx)
      rw [ih _ hnd.2 hfresh' q]
      rw [List.mem_append, List.mem_singleton]
      constructor
      · rintro ((h | h) | ⟨x, hx, hq⟩)
        · exact Or.inl h
        · exact Or.inr ⟨e, List.mem_cons_self e rest, h⟩
        · exact Or.inr ⟨x, List.mem_cons_of_mem e hx, hq⟩
      · rintro (h | ⟨x, hx, hq⟩)
        · exact Or.inl (Or.inl h)
        · rw [List.mem_cons] at hx
          rcases hx with rfl | hx
          · exact Or.inl (Or.inr hq)
          · exact Or.inr ⟨x, hx, hq⟩

/-- Characterization of the edgesMap fold: when existing entries and the
batch agree on values at shared ids, membership after the fold is membership
before plus the admitted edges. -/
theorem foldl_mapSet_edges_mem :
    ∀ (rels : List Relation) (m : List (Nat × GraphEdge)) (cond : Relation → Bool),
      (∀ q ∈ m, ∀ r ∈ rels, q.1 = r.id → q.2 = toGraphEdge r) →
      (∀ r ∈ rels, ∀ r' ∈ rels, r.id = r'.id → toGraphEdge r = toGraphEdge r') →
      ∀ q, (q ∈ rels.foldl (fun m r =>
          if cond r then mapSet m r.id (toGraphEdge r) else m) m ↔
        q ∈ m ∨ ∃ r ∈ rels, cond r = true ∧ q = (r.id, toGraphEdge r)) := by
  intro rels
  induction rels with
  | nil => intro m cond _ _ q; simp
  | cons r0 rest ih =>
      intro m cond hagree hsame q
      rw [List.foldl_cons]
      by_cases hc : cond r0
      · rw [if_pos hc]
        have hm' : ∀ q ∈ mapSet m r0.id (toGraphEdge r0), ∀ r ∈ rest,
            q.1 = r.id → q.2 = toGraphEdge r := by
          intro q hq r hr hid
          rcases mapSet_mem_of hq with rfl | ⟨hqm, _⟩
          · simp only at hid ⊢
            exact hsame r0 (List.mem_cons_self r0 rest) r (List.mem_cons_of_mem r0 hr) hid
          · exact hagree q hqm r (List.mem_cons_of_mem r0 hr) hid
        have hsame' : ∀ r ∈ rest, ∀ r' ∈ rest, r.id = r'.id →
            toGraphEdge r = toGraphEdge r' := by
          intro r hr r' hr' h
          exact hsame r (List.mem_cons_of_mem r0 hr) r' (List.mem_cons_of_mem r0 hr') h
        rw [ih _ cond hm' hsame' q]
        have hmap : q ∈ mapSet m r0.id (toGraphEdge r0) ↔
            q ∈ m ∨ q = (r0.id, toGraphEdge r0) := by
          constructor
          · intro hq
            rcases mapSet_mem_of hq with h | ⟨hqm, _⟩
            · exact Or.inr h
            · exact Or.inl hqm
          · rintro (hq | rfl)
            · by_cases hk : q.1 = r0.id
              · have : q.2 = toGraphEdge r0 :=
                  hagree q hq r0 (List.mem_cons_self r0 rest) hk
                have hq2 : q = (r0.id, toGraphEdge r0) := by
                  cases q
                  simp_all
                rw [hq2]
                exact mapSet_mem_self m r0.id (toGraphEdge r0)
              · exact mapSet_mem_other hq hk (toGraphEdge r0)
            · exact mapSet_mem_self m r0.id (toGraphEdge r0)
        rw [hmap]
        constructor
        · rintro ((h | h) | ⟨r, hr, hcr, hq⟩)
          · exact Or.inl h
          · exact Or.inr ⟨r0, List.mem_cons_self r0 rest, hc, h⟩
          · exact Or.inr ⟨r, List.mem_cons_of_mem r0 hr, hcr, hq⟩
        · rintro (h | ⟨r, hr, hcr, hq⟩)
          · exact Or.inl (Or.inl h)
          · rw [List.mem_cons] at hr
            rcases hr with rfl | hr
            · exact Or.inl (Or.inr hq)
            · exact Or.inr ⟨r, hr, hcr, hq⟩
      · rw [if_neg hc]
        have hsame' : ∀ r ∈ rest, ∀ r' ∈ rest, r.id = r'.id →
            toGraphEdge r = toGraphEdge r' := by
          intro r hr r' hr' h
          exact hsame r (List.mem_cons_of_mem r0 hr) r' (List.mem_cons_of_mem r0 hr') h
        have hagree' : ∀ q ∈ m, ∀ r ∈ rest, q.1 = r.id → q.2 = toGraphEdge r := by
          intro q hq r hr hid
          exact hagree q hq r (List.mem_cons_of_mem r0 hr) hid
        rw [ih _ cond hagree' hsame' q]
        constructor
        · rintro (h | ⟨r, hr, hcr, hq⟩)
          · exact Or.inl h
          · exact Or.inr ⟨r, List.mem_cons_of_mem r0 hr, hcr, hq⟩
        · rintro (h | ⟨r, hr, hcr, hq⟩)
          · exact Or.inl h
          · rw [List.mem_cons] at hr
            rcases hr with rfl | hr
            · rw [hcr] at hc
              exact absurd rfl hc
            · exact Or.inr ⟨r, hr, hcr, hq⟩

/-- Membership in the nextLevelIds accumulator: the unvisited endpoints of
the fetched relations. -/
theorem foldl_nextIds_mem (visited : List Nat) :
    ∀ (rels : List Relation) (acc : List Nat) (j : Nat),
      (j ∈ rels.foldl (fun acc r =>
          let acc1 := if visited.contains r.sourceEntityId then acc
            else acc ++ [r.sourceEntityId]
          if visited.contains r.targetEntityId then acc1
          else acc1 ++ [r.targetEntityId]) acc ↔
        j ∈ acc ∨ ∃ r ∈ rels,
          (j = r.sourceEntityId ∨ j = r.targetEntityId) ∧ ¬ (j ∈ visited)) := by
  intro rels
  induction rels with
  | nil => intro acc j; simp
  | cons r rest ih =>
      intro acc j
      rw [List.foldl_cons, ih]
      have hstep : ∀ x : Nat,
          (x ∈ (let acc1 := if visited.contains r.sourceEntityId then acc
              else acc ++ [r.sourceEntityId]
            if visited.contains r.targetEntityId then acc1
            else acc1 ++ [r.targetEntityId]) ↔
          x ∈ acc ∨ ((x = r.sourceEntityId ∨ x = r.targetEntityId) ∧ ¬ (x ∈ visited))) := by
        intro x
        by_cases hs : r.sourceEntityId ∈ visited
        · by_cases ht : r.targetEntityId ∈ visited
          · rw [if_pos (List.elem_eq_true_of_mem hs), if_pos (List.elem_eq_true_of_mem ht)]
            constructor
            · exact Or.inl
            · rintro (h | ⟨hx | hx, hnv⟩)
              · exact h
              · rw [hx] at hnv
                exact absurd hs hnv
              · rw [hx] at hnv
                exact absurd ht hnv
          · rw [if_pos (List.elem_eq_true_of_mem hs),
              if_neg (fun hc => ht (List.mem_of_elem_eq_true hc))]
            rw [List.mem_append, List.mem_singleton]
            constructor
            · rintro (h | rfl)
              · exact Or.inl h
              · exact Or.inr ⟨Or.inr rfl, ht⟩
            · rintro (h | ⟨hx | hx, hnv⟩)
              · exact Or.inl h
              · rw [hx] at hnv
                exact absurd hs hnv
              · exact Or.inr hx
        · by_cases ht : r.targetEntityId ∈ visited
          · rw [if_neg (fun hc => hs (List.mem_of_elem_eq_true hc)),
              if_pos (List.elem_eq_true_of_mem ht)]
            rw [List.mem_append, List.mem_singleton]
            constructor
            · rintro (h | rfl)
              · exact Or.inl h
              · exact Or.inr ⟨Or.inl rfl, hs⟩
            · rintro (h | ⟨hx | hx, hnv⟩)
              · exact Or.inl h
              · exact Or.inr hx
              · rw [hx] at hnv
                exact absurd ht hnv
          · rw [if_neg (fun hc => hs (List.mem_of_elem_eq_true hc)),
              if_neg (fun hc => ht (List.mem_of_elem_eq_true hc))]
            rw [List.mem_append, List.mem_append, List.mem_singleton, List.mem_singleton]
            constructor
            · rintro ((h | rfl) | rfl)
              · exact Or.inl h
              · exact Or.inr ⟨Or.inl rfl, hs⟩
              · exact Or.inr ⟨Or.inr rfl, ht⟩
            · rintro (h | ⟨hx | hx, hnv⟩)
              · exact Or.inl (Or.inl h)
              · exact Or.inl (Or.inr hx)
              · exact Or.inr hx
      rw [hstep j]
      constructor
      · rintro ((h | h) | ⟨x, hx, hj⟩)
        · exact Or.inl h
        · exact Or.inr ⟨r, List.mem_cons_self r rest, h⟩
        · exact Or.inr ⟨x, List.mem_cons_of_mem r hx, hj⟩
      · rintro (h | ⟨x, hx, hj⟩)
        · exact Or.inl (Or.inl h)
        · rw [List.mem_cons] at hx
          rcases hx with rfl | hx
          · exact Or.inl (Or.inr hj)
          · exact Or.inr ⟨x, hx, hj⟩

/-- Rows sharing a key are identical when the mapped keys are pairwise
distinct. -/
theorem nodup_key_inj {α : Type} {f : α → Nat} {l : List α} (hnd : (l.map f).Nodup)
    {a b : α} (ha : a ∈ l) (hb : b ∈ l) (h : f a = f b) : a = b := by
  induction l with
  | nil => cases ha
  | cons x xs ih =>
      rw [List.map_cons, List.nodup_cons] at hnd
      rw [List.mem_cons] at ha hb
      rcases ha with rfl | ha
      · rcases hb with rfl | hb
        · rfl
        · exact absurd (by rw [h]; exact List.mem_map_of_mem f hb) hnd.1
      · rcases hb with rfl | hb
        · exact absurd (by rw [← h]; exact List.mem_map_of_mem f ha) hnd.1
        · exact ih hnd.2 ha hb

/-- An id belongs to a store entity passing the privacy filter. -/
def passEnt (s : Store) (lvl : PrivacyLevel) (i : Nat) : Prop :=
  ∃ e ∈ s.entities, e.id = i ∧ entityVisible lvl e = true

/-- The loop invariant of getGraphContext: the frontier is visited, every
visited id belongs to a filter-passing entity, nodesMap entries are exactly
projections of filter-passing rows keyed by visited ids, every visited id has
a node entry, every edge entry projects a filter-passing relation whose
endpoints are visited, and every fetched relation is a filter-passing store
row. -/
structure GCInv (s : Store) (lvl : PrivacyLevel) (st : GCState) : Prop where
  cur_visited : ∀ i ∈ st.cur, i ∈ st.visited
  visited_pass : ∀ i ∈ st.visited, passEnt s lvl i
  nodes_spec : ∀ p ∈ st.nodes, p.1 ∈ st.visited ∧
    ∃ e ∈ s.entities, e.id = p.1 ∧ entityVisible lvl e = true ∧ p.2 = toGraphNode e
  visited_nodes : ∀ i ∈ st.visited, ∃ p ∈ st.nodes, p.1 = i
  edges_spec : ∀ p ∈ st.edges, ∃ r ∈ s.relations, relationVisible lvl r = true ∧
    p.1 = r.id ∧ p.2 = toGraphEdge r ∧ r.sourceEntityId ∈ st.visited ∧
    r.targetEntityId ∈ st.visited
  fetched_sub : ∀ r ∈ st.fetched, r ∈ s.relations ∧ relationVisible lvl r = true

/-- A fetched relation whose two endpoints pass the privacy filter has been
admitted to the edgesMap. -/
def fetchedEdges (st : GCState) (s : Store) (lvl : PrivacyLevel) : Prop :=
  ∀ r ∈ st.fetched, passEnt s lvl r.sourceEntityId → passEnt s lvl r.targetEntityId →
    (r.id, toGraphEdge r) ∈ st.edges

/-- Membership in the per-round relation fetch. -/
theorem gcRelevant_mem (s : Store) (lvl : PrivacyLevel) (cur : List Nat) (r : Relation) :
    r ∈ gcRelevant s lvl cur ↔ r ∈ s.relations ∧
      (r.sourceEntityId ∈ cur ∨ r.targetEntityId ∈ cur) ∧ relationVisible lvl r = true := by
  unfold gcRelevant
  rw [List.mem_filter]
  constructor
  · rintro ⟨hr, hc⟩
    simp only [Bool.and_eq_true, Bool.or_eq_true] at hc
    refine ⟨hr, ?_, hc.2⟩
    rcases hc.1 with h | h
    · exact Or.inl (List.mem_of_elem_eq_true h)
    · exact Or.inr (List.mem_of_elem_eq_true h)
  · rintro ⟨hr, hc, hv⟩
    refine ⟨hr, ?_⟩
    simp only [Bool.and_eq_true, Bool.or_eq_true]
    refine ⟨?_, hv⟩
    rcases hc with h | h
    · exact Or.inl (List.elem_eq_true_of_mem h)
    · exact Or.inr (List.elem_eq_true_of_mem h)

/-- Membership in the deduplicated neighbor-id list. -/
theorem gcUniqueNext_mem (visited : List Nat) (rels : List Relation) (j : Nat) :
    j ∈ gcUniqueNext visited rels ↔
      ∃ r ∈ rels, (j = r.sourceEntityId ∨ j = r.targetEntityId) ∧ ¬ (j ∈ visited) := by
  unfold gcUniqueNext gcNextIds
  rw [foldl_setAddNat_mem, foldl_nextIds_mem]
  simp

/-- Membership in the neighbor-entity fetch. -/
theorem gcNewNodes_mem (s : Store) (lvl : PrivacyLevel) (uniqueIds : List Nat)
    (e : Entity) :
    e ∈ gcNewNodes s lvl uniqueIds ↔
      e ∈ s.entities ∧ e.id ∈ uniqueIds ∧ entityVisible lvl e = true := by
  unfold gcNewNodes
  rw [List.mem_filter]
  constructor
  · rintro ⟨he, hc⟩
    simp only [Bool.and_eq_true] at hc
    exact ⟨he, List.mem_of_elem_eq_true hc.1, hc.2⟩
  · rintro ⟨he, hu, hv⟩
    refine ⟨he, ?_⟩
    simp only [Bool.and_eq_true]
    exact ⟨List.elem_eq_true_of_mem hu, hv⟩

/-- Membership after the edge-admission pass. -/
theorem gcAddEdges_mem (vis : List Nat) (rels : List Relation)
    (m : List (Nat × GraphEdge))
    (hagree : ∀ q ∈ m, ∀ r ∈ rels, q.1 = r.id → q.2 = toGraphEdge r)
    (hsame : ∀ r ∈ rels, ∀ r' ∈ rels, r.id = r'.id → toGraphEdge r = toGraphEdge r')
    (q : Nat × GraphEdge) :
    q ∈ gcAddEdges vis rels m ↔ q ∈ m ∨ ∃ r ∈ rels,
      (r.sourceEntityId ∈ vis ∧ r.targetEntityId ∈ vis) ∧ q = (r.id, toGraphEdge r) := by
  unfold gcAddEdges
  rw [foldl_mapSet_edges_mem rels m _ hagree hsame q]
  constructor
  · rintro (h | ⟨r, hr, hcr, hq⟩)
    · exact Or.inl h
    · rw [Bool.and_eq_true] at hcr
      exact Or.inr ⟨r, hr, ⟨List.mem_of_elem_eq_true hcr.1,
        List.mem_of_elem_eq_true hcr.2⟩, hq⟩
  · rintro (h | ⟨r, hr, ⟨hs, ht⟩, hq⟩)
    · exact Or.inl h
    · refine Or.inr ⟨r, hr, ?_, hq⟩
      rw [Bool.and_eq_true]
      exact ⟨List.elem_eq_true_of_mem hs, List.elem_eq_true_of_mem ht⟩

/-- Existing edgesMap entries agree with any batch of store relations at
shared ids, by the edge invariant and unique relation ids. -/
theorem edges_agree {s : Store} {lvl : PrivacyLevel} {st : GCState}
    (hnr : (s.relations.map (·.id)).Nodup) (hinv : GCInv s lvl st)
    {rels : List Relation} (hsub : ∀ r ∈ rels, r ∈ s.relations) :
    ∀ q ∈ st.edges, ∀ r ∈ rels, q.1 = r.id → q.2 = toGraphEdge r := by
  intro q hq r hr hid
  obtain ⟨r0, hr0, _, hid0, hval, _, _⟩ := hinv.edges_spec q hq
  have : r0 = r := nodup_key_inj hnr hr0 (hsub r hr) (by rw [← hid0, hid])
  rw [hval, this]

/-- Store relations with equal ids have equal edge projections, by unique
relation ids. -/
theorem rels_same {s : Store} (hnr : (s.relations.map (·.id)).Nodup)
    {rels : List Relation} (hsub : ∀ r ∈ rels, r ∈ s.relations) :
    ∀ r ∈ rels, ∀ r' ∈ rels, r.id = r'.id → toGraphEdge r = toGraphEdge r' := by
  intro r hr r' hr' h
  rw [nodup_key_inj hnr (hsub r hr) (hsub r' hr') h]

/-- One traversal round preserves the loop invariant and the fetched-edge
property. -/
theorem gcRound_inv (s : Store) (lvl : PrivacyLevel)
    (hne : (s.entities.map (·.id)).Nodup) (hnr : (s.relations.map (·.id)).Nodup)
    (st : GCState) (hinv : GCInv s lvl st) :
    GCInv s lvl (gcRound s lvl st).1 ∧
      (fetchedEdges st s lvl → fetchedEdges (gcRound s lvl st).1 s lvl) := by
  have hsub : ∀ r ∈ gcRelevant s lvl st.cur, r ∈ s.relations :=
    fun r hr => ((gcRelevant_mem s lvl st.cur r).mp hr).1
  have hagree := edges_agree hnr hinv hsub
  have hsame := rels_same hnr hsub
  by_cases hempty : (gcUniqueNext st.visited (gcRelevant s lvl st.cur)).isEmpty
  · have hstep : gcRound s lvl st = (⟨st.cur, st.visited, st.nodes,
        gcAddEdges st.visited (gcRelevant s lvl st.cur) st.edges,
        st.fetched ++ gcRelevant s lvl st.cur⟩, false) := by
      unfold gcRound
      rw [if_pos hempty]
    have hallvis : ∀ r ∈ gcRelevant s lvl st.cur,
        r.sourceEntityId ∈ st.visited ∧ r.targetEntityId ∈ st.visited := by
      intro r hr
      have hnil := List.isEmpty_iff.mp hempty
      constructor
      · by_contra h
        have : r.sourceEntityId ∈ gcUniqueNext st.visited (gcRelevant s lvl st.cur) :=
          (gcUniqueNext_mem _ _ _).mpr ⟨r, hr, Or.inl rfl, h⟩
        rw [hnil] at this
        cases this
      · by_contra h
        have : r.targetEntityId ∈ gcUniqueNext st.visited (gcRelevant s lvl st.cur) :=
          (gcUniqueNext_mem _ _ _).mpr ⟨r, hr, Or.inr rfl, h⟩
        rw [hnil] at this
        cases this
    rw [hstep]
    refine ⟨⟨hinv.cur_visited, hinv.visited_pass, hinv.nodes_spec,
      hinv.visited_nodes, ?_, ?_⟩, ?_⟩
    · intro q hq
      rw [gcAddEdges_mem st.visited _ st.edges hagree hsame q] at hq
      rcases hq with hq | ⟨r, hr, ⟨hs, ht⟩, rfl⟩
      · exact hinv.edges_spec q hq
      · have hm := (gcRelevant_mem s lvl st.cur r).mp hr
        exact ⟨r, hm.1, hm.2.2, rfl, rfl, hs, ht⟩
    · intro r hr
      rw [List.mem_append] at hr
      rcases hr with hr | hr
      · exact hinv.fetched_sub r hr
      · have hm := (gcRelevant_mem s lvl st.cur r).mp hr
        exact ⟨hm.1, hm.2.2⟩
    · intro hf r hr hps hpt
      rw [List.mem_append] at hr
      rcases hr with hr | hr
      · exact (gcAddEdges_mem st.visited _ st.edges hagree hsame _).mpr
          (Or.inl (hf r hr hps hpt))
      · exact (gcAddEdges_mem st.visited _ st.edges hagree hsame _).mpr
          (Or.inr ⟨r, hr, hallvis r hr, rfl⟩)
  · have hstep : gcRound s lvl st = (⟨(gcNewNodes s lvl
        (gcUniqueNext st.visited (gcRelevant s lvl st.cur))).map (·.id),
        (gcNewNodes s lvl (gcUniqueNext st.visited (gcRelevant s lvl st.cur))).foldl
          (fun v e => setAddNat v e.id) st.visited,
        (gcNewNodes s lvl (gcUniqueNext st.visited (gcRelevant s lvl st.cur))).foldl
          (fun m e => mapSet m e.id (toGraphNode e)) st.nodes,
        gcAddEdges ((gcNewNodes s lvl
            (gcUniqueNext st.visited (gcRelevant s lvl st.cur))).foldl
          (fun v e => setAddNat v e.id) st.visited)
          (gcRelevant s lvl st.cur) st.edges,
        st.fetched ++ gcRelevant s lvl st.cur⟩, true) := by
      unfold gcRound
      rw [if_neg hempty]
    have hndb : ((gcNewNodes s lvl
        (gcUniqueNext st.visited (gcRelevant s lvl st.cur))).map (·.id)).Nodup :=
      hne.sublist ((List.filter_sublist s.entities).map (·.id))
    have hfresh : ∀ e ∈ gcNewNodes s lvl
        (gcUniqueNext st.visited (gcRelevant s lvl st.cur)),
        ∀ p ∈ st.nodes, p.1 ≠ e.id := by
      intro e he p hp
      have hu := ((gcNewNodes_mem _ _ _ _).mp he).2.1
      have hnv := ((gcUniqueNext_mem _ _ _).mp hu).choose_spec.2.2
      intro hcontra
      exact hnv (hcontra ▸ (hinv.nodes_spec p hp).1)
    have hvis' : ∀ j : Nat, (j ∈ (gcNewNodes s lvl
        (gcUniqueNext st.visited (gcRelevant s lvl st.cur))).foldl
          (fun v e => setAddNat v e.id) st.visited ↔
        j ∈ st.visited ∨ ∃ e ∈ gcNewNodes s lvl
          (gcUniqueNext st.visited (gcRelevant s lvl st.cur)), e.id = j) :=
      fun j => foldl_setAddNat_ids_mem _ st.visited j
    have hnodes' : ∀ q, (q ∈ (gcNewNodes s lvl
        (gcUniqueNext st.visited (gcRelevant s lvl st.cur))).foldl
          (fun m e => mapSet m e.id (toGraphNode e)) st.nodes ↔
        q ∈ st.nodes ∨ ∃ e ∈ gcNewNodes s lvl
          (gcUniqueNext st.visited (gcRelevant s lvl st.cur)),
          q = (e.id, toGraphNode e)) :=
      foldl_mapSet_nodes_mem _ st.nodes hndb hfresh
    have hagree' : ∀ q ∈ st.edges, ∀ r ∈ gcRelevant s lvl st.cur,
        q.1 = r.id → q.2 = toGraphEdge r := hagree
    have hvsub : ∀ j ∈ st.visited, j ∈ (gcNewNodes s lvl
        (gcUniqueNext st.visited (gcRelevant s lvl st.cur))).foldl
          (fun v e => setAddNat v e.id) st.visited :=
      fun j hj => (hvis' j).mpr (Or.inl hj)
    rw [hstep]
    refine ⟨⟨?_, ?_, ?_, ?_, ?_, ?_⟩, ?_⟩
    · intro i hi
      rw [List.mem_map] at hi
      obtain ⟨e, he, hie⟩ := hi
      exact (hvis' i).mpr (Or.inr ⟨e, he, hie⟩)
    · intro i hi
      rcases (hvis' i).mp hi with h | ⟨e, he, hie⟩
      · exact hinv.visited_pass i h
      · have hm := (gcNewNodes_mem _ _ _ _).mp he
        exact ⟨e, hm.1, hie, hm.2.2⟩
    · intro p hp
      rcases (hnodes' p).mp hp with h | ⟨e, he, rfl⟩
      · obtain ⟨h1, h2⟩ := hinv.nodes_spec p h
        exact ⟨hvsub p.1 h1, h2⟩
      · have hm := (gcNewNodes_mem _ _ _ _).mp he
        exact ⟨(hvis' e.id).mpr (Or.inr ⟨e, he, rfl⟩), e, hm.1, rfl, hm.2.2, rfl⟩
    · intro i hi
      rcases (hvis' i).mp hi with h | ⟨e, he, hie⟩
      · obtain ⟨p, hp, hpi⟩ := hinv.visited_nodes i h
        exact ⟨p, (hnodes' p).mpr (Or.inl hp), hpi⟩
      · exact ⟨(e.id, toGraphNode e), (hnodes' _).mpr (Or.inr ⟨e, he, rfl⟩), hie⟩
    · intro q hq
      rw [gcAddEdges_mem _ _ st.edges hagree' hsame q] at hq
      rcases hq with hq | ⟨r, hr, ⟨hs, ht⟩, rfl⟩
      · obtain ⟨r, h1, h2, h3, h4, h5, h6⟩ := hinv.edges_spec q hq
        exact ⟨r, h1, h2, h3, h4, hvsub _ h5, hvsub _ h6⟩
      · have hm := (gcRelevant_mem s lvl st.cur r).mp hr
        exact ⟨r, hm.1, hm.2.2, rfl, rfl, hs, ht⟩
    · intro r hr
      rw [List.mem_append] at hr
      rcases hr with hr | hr
      · exact hinv.fetched_sub r hr
      · have hm := (gcRelevant_mem s lvl st.cur r).mp hr
        exact ⟨hm.1, hm.2.2⟩
    · intro hf r hr hps hpt
      rw [List.mem_append] at hr
      rcases hr with hr | hr
      · exact (gcAddEdges_mem _ _ st.edges hagree' hsame _).mpr
          (Or.inl (hf r hr hps hpt))
      · have hend : ∀ j : Nat, (j = r.sourceEntityId ∨ j = r.targetEntityId) →
            passEnt s lvl j → j ∈ (gcNewNodes s lvl
              (gcUniqueNext st.visited (gcRelevant s lvl st.cur))).foldl
              (fun v e => setAddNat v e.id) st.visited := by
          intro j hjend hpass
          by_cases hjv : j ∈ st.visited
          · exact hvsub j hjv
          · have hju : j ∈ gcUniqueNext st.visited (gcRelevant s lvl st.cur) :=
              (gcUniqueNext_mem _ _ _).mpr ⟨r, hr, hjend, hjv⟩
            obtain ⟨e, hem, heid, hev⟩ := hpass
            have : e ∈ gcNewNodes s lvl
                (gcUniqueNext st.visited (gcRelevant s lvl st.cur)) :=
              (gcNewNodes_mem _ _ _ _).mpr ⟨hem, heid ▸ hju, hev⟩
            exact (hvis' j).mpr (Or.inr ⟨e, this, heid⟩)
        exact (gcAddEdges_mem _ _ st.edges hagree' hsame _).mpr
          (Or.inr ⟨r, hr, ⟨hend _ (Or.inl rfl) hps, hend _ (Or.inr rfl) hpt⟩, rfl⟩)

/-- Membership in the privacy-filtered seed fetch. -/
theorem gcInit_initialNodes_mem (s : Store) (seeds : List Nat) (lvl : PrivacyLevel)
    (e : Entity) :
    e ∈ s.entities.filter (fun e => seeds.contains e.id && entityVisible lvl e) ↔
      e ∈ s.entities ∧ e.id ∈ seeds ∧ entityVisible lvl e = true := by
  rw [List.mem_filter]
  constructor
  · rintro ⟨he, hc⟩
    rw [Bool.and_eq_true] at hc
    exact ⟨he, List.mem_of_elem_eq_true hc.1, hc.2⟩
  · rintro ⟨he, hs, hv⟩
    refine ⟨he, ?_⟩
    rw [Bool.and_eq_true]
    exact ⟨List.elem_eq_true_of_mem hs, hv⟩

/-- The initial traversal state satisfies the loop invariant, with nothing
fetched yet. -/
theorem gcInit_inv (s : Store) (seeds : List Nat) (lvl : PrivacyLevel)
    (hne : (s.entities.map (·.id)).Nodup) :
    GCInv s lvl (gcInit s seeds lvl) ∧ fetchedEdges (gcInit s seeds lvl) s lvl := by
  have hcur_eq : (gcInit s seeds lvl).cur = (s.entities.filter
      (fun e => seeds.contains e.id && entityVisible lvl e)).map (·.id) := rfl
  have hvis_eq : (gcInit s seeds lvl).visited = ((s.entities.filter
      (fun e => seeds.contains e.id && entityVisible lvl e)).map (·.id)).foldl
        setAddNat [] := rfl
  have hnodes_eq : (gcInit s seeds lvl).nodes = (s.entities.filter
      (fun e => seeds.contains e.id && entityVisible lvl e)).foldl
        (fun m e => mapSet m e.id (toGraphNode e)) [] := rfl
  have hedges_eq : (gcInit s seeds lvl).edges = [] := rfl
  have hfetched_eq : (gcInit s seeds lvl).fetched = [] := rfl
  have hndb : ((s.entities.filter
      (fun e => seeds.contains e.id && entityVisible lvl e)).map (·.id)).Nodup :=
    hne.sublist ((List.filter_sublist s.entities).map (·.id))
  have hfresh : ∀ e ∈ s.entities.filter
      (fun e => seeds.contains e.id && entityVisible lvl e),
      ∀ p ∈ ([] : List (Nat × GraphNode)), p.1 ≠ e.id := by
    intro e _ p hp
    cases hp
  have hnodes : ∀ q, (q ∈ (s.entities.filter
      (fun e => seeds.contains e.id && entityVisible lvl e)).foldl
        (fun m e => mapSet m e.id (toGraphNode e)) [] ↔
      ∃ e ∈ s.entities.filter (fun e => seeds.contains e.id && entityVisible lvl e),
        q = (e.id, toGraphNode e)) := by
    intro q
    rw [foldl_mapSet_nodes_mem _ [] hndb hfresh q]
    simp
  have hvis : ∀ j : Nat, (j ∈ ((s.entities.filter
      (fun e => seeds.contains e.id && entityVisible lvl e)).map (·.id)).foldl
        setAddNat [] ↔
      ∃ e ∈ s.entities.filter (fun e => seeds.contains e.id && entityVisible lvl e),
        e.id = j) := by
    intro j
    rw [foldl_setAddNat_mem]
    constructor
    · rintro (h | h)
      · cases h
      · rw [List.mem_map] at h
        obtain ⟨e, he, hj⟩ := h
        exact ⟨e, he, hj⟩
    · rintro ⟨e, he, hj⟩
      exact Or.inr (List.mem_map.mpr ⟨e, he, hj⟩)
  refine ⟨⟨?_, ?_, ?_, ?_, ?_, ?_⟩, ?_⟩
  · intro i hi
    rw [hcur_eq, List.mem_map] at hi
    obtain ⟨e, he, hie⟩ := hi
    rw [hvis_eq]
    exact (hvis i).mpr ⟨e, he, hie⟩
  · intro i hi
    rw [hvis_eq] at hi
    obtain ⟨e, he, hie⟩ := (hvis i).mp hi
    have hm := (gcInit_initialNodes_mem s seeds lvl e).mp he
    exact ⟨e, hm.1, hie, hm.2.2⟩
  · intro p hp
    rw [hnodes_eq] at hp
    obtain ⟨e, he, rfl⟩ := (hnodes p).mp hp
    have hm := (gcInit_initialNodes_mem s seeds lvl e).mp he
    refine ⟨?_, e, hm.1, rfl, hm.2.2, rfl⟩
    rw [hvis_eq]
    exact (hvis e.id).mpr ⟨e, he, rfl⟩
  · intro i hi
    rw [hvis_eq] at hi
    obtain ⟨e, he, hie⟩ := (hvis i).mp hi
    refine ⟨(e.id, toGraphNode e), ?_, hie⟩
    rw [hnodes_eq]
    exact (hnodes _).mpr ⟨e, he, rfl⟩
  · intro p hp
    rw [hedges_eq] at hp
    cases hp
  · intro r hr
    rw [hfetched_eq] at hr
    cases hr
  · intro r hr
    rw [hfetched_eq] at hr
    cases hr

/-- The depth loop preserves invariant and fetched-edge property. -/
theorem gcLoop_inv (s : Store) (lvl : PrivacyLevel)
    (hne : (s.entities.map (·.id)).Nodup) (hnr : (s.relations.map (·.id)).Nodup) :
    ∀ (d : Nat) (st : GCState), GCInv s lvl st → fetchedEdges st s lvl →
      GCInv s lvl (gcLoop s lvl d st) ∧ fetchedEdges (gcLoop s lvl d st) s lvl := by
  intro d
  induction d with
  | zero => intro st h1 h2; exact ⟨h1, h2⟩
  | succ n ih =>
      intro st h1 h2
      rw [gcLoop]
      by_cases hc : st.cur.isEmpty
      · rw [if_pos hc]
        exact ⟨h1, h2⟩
      · rw [if_neg hc]
        have h := gcRound_inv s lvl hne hnr st h1
        by_cases hb : (gcRound s lvl st).2
        · simp only [hb, if_true]
          exact ih _ h.1 (h.2 h2)
        · simp only [hb, if_false]
          exact ⟨h.1, h.2 h2⟩

/-- The final traversal state satisfies invariant and fetched-edge
property. -/
theorem getGraphContextState_inv (s : Store) (seeds : List Nat) (depth : Nat)
    (lvl : PrivacyLevel)
    (hne : (s.entities.map (·.id)).Nodup) (hnr : (s.relations.map (·.id)).Nodup) :
    GCInv s lvl (getGraphContextState s seeds depth lvl) ∧
      fetchedEdges (getGraphContextState s seeds depth lvl) s lvl := by
  have h0 := gcInit_inv s seeds lvl hne
  exact gcLoop_inv s lvl hne hnr depth _ h0.1 h0.2

/-- A visited id appears among the returned nodes. -/
theorem visited_has_node (s : Store) (seeds : List Nat) (depth : Nat)
    (lvl : PrivacyLevel) (hinv : GCInv s lvl (getGraphContextState s seeds depth lvl))
    (j : Nat) (hj : j ∈ (getGraphContextState s seeds depth lvl).visited) :
    ∃ n ∈ (getGraphContext s seeds depth lvl).nodes, n.id = j := by
  obtain ⟨q, hq, hqj⟩ := hinv.visited_nodes j hj
  obtain ⟨_, e, _, heid, _, hqval⟩ := hinv.nodes_spec q hq
  refine ⟨q.2, List.mem_map_of_mem _ hq, ?_⟩
  rw [hqval]
  show e.id = j
  rw [heid, hqj]

/-- A returned node's id belongs to a filter-passing store entity. -/
theorem node_id_pass (s : Store) (seeds : List Nat) (depth : Nat)
    (lvl : PrivacyLevel) (hinv : GCInv s lvl (getGraphContextState s seeds depth lvl))
    (j : Nat) (hj : ∃ n ∈ (getGraphContext s seeds depth lvl).nodes, n.id = j) :
    passEnt s lvl j := by
  obtain ⟨n, hn, hnj⟩ := hj
  have hn' : n ∈ (getGraphContextState s seeds depth lvl).nodes.map (·.2) := hn
  rw [List.mem_map] at hn'
  obtain ⟨q, hq, hqn⟩ := hn'
  obtain ⟨_, e, he, heid, hev, hqval⟩ := hinv.nodes_spec q hq
  refine ⟨e, he, ?_, hev⟩
  have : n.id = e.id := by
    rw [← hqn, hqval]
    rfl
  rw [← this, hnj]

/-- C1: privacy containment of the traversal. For every store whose ids are
primary keys and every PRIVATE entity p, a PUBLIC-level getGraphContext never
returns p's id among its nodes, never returns an edge with p's id as an
endpoint, and never returns a PRIVATE relation. -/
theorem getGraphContext_public_privacy (s : Store) (seeds : List Nat) (depth : Nat)
    (p : Entity)
    (hne : (s.entities.map (·.id)).Nodup) (hnr : (s.relations.map (·.id)).Nodup)
    (hp : p ∈ s.entities) (hpriv : p.privacyLevel = PRIVATE) :
    (∀ n ∈ (getGraphContext s seeds depth PUBLIC).nodes, n.id ≠ p.id) ∧
    (∀ ge ∈ (getGraphContext s seeds depth PUBLIC).edges,
      ge.source ≠ p.id ∧ ge.target ≠ p.id ∧ ge.privacyLevel ≠ PRIVATE) := by
  have hinv := (getGraphContextState_inv s seeds depth PUBLIC hne hnr).1
  have hnot : ∀ j : Nat, passEnt s PUBLIC j → j ≠ p.id := by
    rintro j ⟨e, he, heid, hev⟩ hcontra
    have : e = p := nodup_key_inj hne he hp (by rw [heid, hcontra])
    rw [this] at hev
    simp [entityVisible, hpriv] at hev
  constructor
  · intro n hn hcontra
    exact hnot n.id (node_id_pass s seeds depth PUBLIC hinv n.id ⟨n, hn, rfl⟩) hcontra
  · intro ge hge
    have hge' : ge ∈ (getGraphContextState s seeds depth PUBLIC).edges.map (·.2) := hge
    rw [List.mem_map] at hge'
    clear hge
    have hge := hge'
    obtain ⟨q, hq, rfl⟩ := hge
    obtain ⟨r, _, hrv, _, hqval, hsrc, htgt⟩ := hinv.edges_spec q hq
    rw [hqval]
    refine ⟨hnot _ (hinv.visited_pass _ hsrc), hnot _ (hinv.visited_pass _ htgt), ?_⟩
    intro hcontra
    have : r.privacyLevel = PUBLIC := by simpa [relationVisible] using hrv
    rw [show (toGraphEdge r).privacyLevel = r.privacyLevel from rfl, this] at hcontra
    cases hcontra

/-- Witness store for C1: a PUBLIC seed, a PRIVATE neighbor and a PUBLIC
neighbor. -/
def c1Store : Store :=
  ⟨[⟨1, "A", "COMPANY", none, PUBLIC, USER, none, none⟩,
    ⟨2, "B", "PERSON", none, PRIVATE, USER, none, none⟩,
    ⟨3, "C", "PERSON", none, PUBLIC, USER, none, none⟩],
   [⟨10, 1, 2, "WORKS_AT", none, PUBLIC, USER, none, none⟩,
    ⟨11, 1, 3, "WORKS_AT", none, PUBLIC, USER, none, none⟩]⟩

/-- Witness for C1 at the concrete store: the PRIVATE entity with id 2 stays
out of the PUBLIC traversal. -/
theorem getGraphContext_public_privacy_witness :
    ((c1Store.entities.map (·.id)).Nodup) ∧
    ((c1Store.relations.map (·.id)).Nodup) ∧
    ((⟨2, "B", "PERSON", none, PRIVATE, USER, none, none⟩ : Entity) ∈ c1Store.entities) ∧
    (⟨2, "B", "PERSON", none, PRIVATE, USER, none, none⟩ : Entity).privacyLevel
      = PRIVATE ∧
    ((⟨1, "A", "COMPANY", none, PUBLIC⟩ : GraphNode) ∈
        (getGraphContext c1Store [1] 2 PUBLIC).nodes →
      (⟨1, "A", "COMPANY", none, PUBLIC⟩ : GraphNode).id ≠
        (⟨2, "B", "PERSON", none, PRIVATE, USER, none, none⟩ : Entity).id) := by
  refine ⟨by decide, by decide, by decide, by decide, ?_⟩
  exact (getGraphContext_public_privacy c1Store [1] 2
    ⟨2, "B", "PERSON", none, PRIVATE, USER, none, none⟩
    (by decide) (by decide) (by decide) (by decide)).1
    ⟨1, "A", "COMPANY", none, PUBLIC⟩

/-- C7: an edge is retained iff both endpoints are visible. Every returned
edge has both endpoints among the returned nodes, and every relation fetched
during traversal whose two endpoints are among the returned nodes appears
among the returned edges. -/
theorem getGraphContext_edge_iff (s : Store) (seeds : List Nat) (depth : Nat)
    (lvl : PrivacyLevel)
    (hne : (s.entities.map (·.id)).Nodup) (hnr : (s.relations.map (·.id)).Nodup) :
    (∀ ge ∈ (getGraphContext s seeds depth lvl).edges,
      (∃ n ∈ (getGraphContext s seeds depth lvl).nodes, n.id = ge.source) ∧
      (∃ n ∈ (getGraphContext s seeds depth lvl).nodes, n.id = ge.target)) ∧
    (∀ r ∈ (getGraphContextState s seeds depth lvl).fetched,
      (∃ n ∈ (getGraphContext s seeds depth lvl).nodes, n.id = r.sourceEntityId) →
      (∃ n ∈ (getGraphContext s seeds depth lvl).nodes, n.id = r.targetEntityId) →
      ∃ ge ∈ (getGraphContext s seeds depth lvl).edges, ge = toGraphEdge r) := by
  obtain ⟨hinv, hfe⟩ := getGraphContextState_inv s seeds depth lvl hne hnr
  constructor
  · intro ge hge
    have hge' : ge ∈ (getGraphContextState s seeds depth lvl).edges.map (·.2) := hge
    rw [List.mem_map] at hge'
    obtain ⟨q, hq, hqe⟩ := hge'
    obtain ⟨r, _, _, _, hqval, hsrc, htgt⟩ := hinv.edges_spec q hq
    have hs : ge.source = r.sourceEntityId := by rw [← hqe, hqval]; rfl
    have ht : ge.target = r.targetEntityId := by rw [← hqe, hqval]; rfl
    rw [hs, ht]
    exact ⟨visited_has_node s seeds depth lvl hinv _ hsrc,
      visited_has_node s seeds depth lvl hinv _ htgt⟩
  · intro r hr hsrc htgt
    have hps : passEnt s lvl r.sourceEntityId :=
      node_id_pass s seeds depth lvl hinv _ hsrc
    have hpt : passEnt s lvl r.targetEntityId :=
      node_id_pass s seeds depth lvl hinv _ htgt
    have hpair := hfe r hr hps hpt
    exact ⟨toGraphEdge r,
      show (r.id, toGraphEdge r).2 ∈ (getGraphContextState s seeds depth lvl).edges.map
        (·.2) from List.mem_map_of_mem _ hpair, rfl⟩

/-- Witness for C7 at the concrete store: edge 11 of the PUBLIC traversal of
c1Store has both endpoints among the returned nodes. -/
theorem getGraphContext_edge_iff_witness :
    ((c1Store.entities.map (·.id)).Nodup) ∧
    ((c1Store.relations.map (·.id)).Nodup) ∧
    ((⟨11, 1, 3, "WORKS_AT", none, none, PUBLIC⟩ : GraphEdge) ∈
        (getGraphContext c1Store [1] 2 PUBLIC).edges →
      (∃ n ∈ (getGraphContext c1Store [1] 2 PUBLIC).nodes,
        n.id = (⟨11, 1, 3, "WORKS_AT", none, none, PUBLIC⟩ : GraphEdge).source) ∧
      (∃ n ∈ (getGraphContext c1Store [1] 2 PUBLIC).nodes,
        n.id = (⟨11, 1, 3, "WORKS_AT", none, none, PUBLIC⟩ : GraphEdge).target)) := by
  refine ⟨by decide, by decide, ?_⟩
  exact (getGraphContext_edge_iff c1Store [1] 2 PUBLIC (by decide) (by decide)).1
    ⟨11, 1, 3, "WORKS_AT", none, none, PUBLIC⟩

/-- Two traversal states agreeing as sets on frontier, visited ids, nodesMap
entries and edgesMap entries. -/
def StateEquiv (st₁ st₂ : GCState) : Prop :=
  (∀ i : Nat, i ∈ st₁.cur ↔ i ∈ st₂.cur) ∧
  (∀ i : Nat, i ∈ st₁.visited ↔ i ∈ st₂.visited) ∧
  (∀ q : Nat × GraphNode, q ∈ st₁.nodes ↔ q ∈ st₂.nodes) ∧
  (∀ q : Nat × GraphEdge, q ∈ st₁.edges ↔ q ∈ st₂.edges)

/-- Equal-membership frontiers are empty together. -/
theorem isEmpty_of_equiv {a b : List Nat} (h : ∀ i : Nat, i ∈ a ↔ i ∈ b) :
    a.isEmpty = b.isEmpty := by
  cases ha : a.isEmpty
  · cases hb : b.isEmpty
    · rfl
    · rw [List.isEmpty_iff] at hb
      rw [List.isEmpty_eq_false_iff_exists_mem] at ha
      obtain ⟨x, hx⟩ := ha
      have := (h x).mp hx
      rw [hb] at this
      cases this
  · cases hb : b.isEmpty
    · rw [List.isEmpty_iff] at ha
      rw [List.isEmpty_eq_false_iff_exists_mem] at hb
      obtain ⟨x, hx⟩ := hb
      have := (h x).mpr hx
      rw [ha] at this
      cases this
    · rfl

/-- One traversal round on permuted stores with equivalent states produces
equivalent states and the same continue/break decision. -/
theorem gcRound_equiv (s₁ s₂ : Store) (lvl : PrivacyLevel)
    (hper : s₁.entities.Perm s₂.entities) (hprr : s₁.relations.Perm s₂.relations)
    (hne₁ : (s₁.entities.map (·.id)).Nodup) (hnr₁ : (s₁.relations.map (·.id)).Nodup)
    (st₁ st₂ : GCState) (hinv₁ : GCInv s₁ lvl st₁) (hinv₂ : GCInv s₂ lvl st₂)
    (heq : StateEquiv st₁ st₂) :
    StateEquiv (gcRound s₁ lvl st₁).1 (gcRound s₂ lvl st₂).1 ∧
      (gcRound s₁ lvl st₁).2 = (gcRound s₂ lvl st₂).2 := by
  obtain ⟨hcur, hvis, hnodes, hedges⟩ := heq
  have hne₂ : (s₂.entities.map (·.id)).Nodup := ((hper.map (·.id)).nodup_iff).mp hne₁
  have hnr₂ : (s₂.relations.map (·.id)).Nodup := ((hprr.map (·.id)).nodup_iff).mp hnr₁
  have hrels : ∀ r : Relation,
      r ∈ gcRelevant s₁ lvl st₁.cur ↔ r ∈ gcRelevant s₂ lvl st₂.cur := by
    intro r
    rw [gcRelevant_mem, gcRelevant_mem, hprr.mem_iff,
      hcur r.sourceEntityId, hcur r.targetEntityId]
  have hU : ∀ j : Nat,
      j ∈ gcUniqueNext st₁.visited (gcRelevant s₁ lvl st₁.cur) ↔
      j ∈ gcUniqueNext st₂.visited (gcRelevant s₂ lvl st₂.cur) := by
    intro j
    rw [gcUniqueNext_mem, gcUniqueNext_mem]
    constructor
    · rintro ⟨r, hr, hj, hv⟩
      exact ⟨r, (hrels r).mp hr, hj, fun hc => hv ((hvis j).mpr hc)⟩
    · rintro ⟨r, hr, hj, hv⟩
      exact ⟨r, (hrels r).mpr hr, hj, fun hc => hv ((hvis j).mp hc)⟩
  have hsub₁ : ∀ r ∈ gcRelevant s₁ lvl st₁.cur, r ∈ s₁.relations :=
    fun r hr => ((gcRelevant_mem s₁ lvl st₁.cur r).mp hr).1
  have hsub₂ : ∀ r ∈ gcRelevant s₂ lvl st₂.cur, r ∈ s₂.relations :=
    fun r hr => ((gcRelevant_mem s₂ lvl st₂.cur r).mp hr).1
  have hagree₁ := edges_agree hnr₁ hinv₁ hsub₁
  have hagree₂ := edges_agree hnr₂ hinv₂ hsub₂
  have hsame₁ := rels_same hnr₁ hsub₁
  have hsame₂ := rels_same hnr₂ hsub₂
  have hem : (gcUniqueNext st₁.visited (gcRelevant s₁ lvl st₁.cur)).isEmpty =
      (gcUniqueNext st₂.visited (gcRelevant s₂ lvl st₂.cur)).isEmpty :=
    isEmpty_of_equiv hU
  by_cases hempty : (gcUniqueNext st₁.visited (gcRelevant s₁ lvl st₁.cur)).isEmpty
  · have hempty₂ : (gcUniqueNext st₂.visited (gcRelevant s₂ lvl st₂.cur)).isEmpty := by
      rw [← hem]
      exact hempty
    have hstep₁ : gcRound s₁ lvl st₁ = (⟨st₁.cur, st₁.visited, st₁.nodes,
        gcAddEdges st₁.visited (gcRelevant s₁ lvl st₁.cur) st₁.edges,
        st₁.fetched ++ gcRelevant s₁ lvl st₁.cur⟩, false) := by
      unfold gcRound
      rw [if_pos hempty]
    have hstep₂ : gcRound s₂ lvl st₂ = (⟨st₂.cur, st₂.visited, st₂.nodes,
        gcAddEdges st₂.visited (gcRelevant s₂ lvl st₂.cur) st₂.edges,
        st₂.fetched ++ gcRelevant s₂ lvl st₂.cur⟩, false) := by
      unfold gcRound
      rw [if_pos hempty₂]
    rw [hstep₁, hstep₂]
    refine ⟨⟨hcur, hvis, hnodes, ?_⟩, rfl⟩
    intro q
    rw [gcAddEdges_mem _ _ _ hagree₁ hsame₁ q, gcAddEdges_mem _ _ _ hagree₂ hsame₂ q]
    constructor
    · rintro (h | ⟨r, hr, ⟨hs, ht⟩, hq⟩)
      · exact Or.inl ((hedges q).mp h)
      · exact Or.inr ⟨r, (hrels r).mp hr,
          ⟨(hvis _).mp hs, (hvis _).mp ht⟩, hq⟩
    · rintro (h | ⟨r, hr, ⟨hs, ht⟩, hq⟩)
      · exact Or.inl ((hedges q).mpr h)
      · exact Or.inr ⟨r, (hrels r).mpr hr,
          ⟨(hvis _).mpr hs, (hvis _).mpr ht⟩, hq⟩
  · have hempty₂ : ¬ (gcUniqueNext st₂.visited (gcRelevant s₂ lvl st₂.cur)).isEmpty := by
      rw [← hem]
      exact hempty
    have hnew : ∀ e : Entity,
        e ∈ gcNewNodes s₁ lvl (gcUniqueNext st₁.visited (gcRelevant s₁ lvl st₁.cur)) ↔
        e ∈ gcNewNodes s₂ lvl (gcUniqueNext st₂.visited (gcRelevant s₂ lvl st₂.cur)) := by
      intro e
      rw [gcNewNodes_mem, gcNewNodes_mem, hper.mem_iff, hU e.id]
    have hvis' : ∀ j : Nat,
        (j ∈ (gcNewNodes s₁ lvl
            (gcUniqueNext st₁.visited (gcRelevant s₁ lvl st₁.cur))).foldl
          (fun v e => setAddNat v e.id) st₁.visited ↔
        j ∈ (gcNewNodes s₂ lvl
            (gcUniqueNext st₂.visited (gcRelevant s₂ lvl st₂.cur))).foldl
          (fun v e => setAddNat v e.id) st₂.visited) := by
      intro j
      rw [foldl_setAddNat_ids_mem, foldl_setAddNat_ids_mem, hvis j]
      constructor
      · rintro (h | ⟨e, he, hj⟩)
        · exact Or.inl h
        · exact Or.inr ⟨e, (hnew e).mp he, hj⟩
      · rintro (h | ⟨e, he, hj⟩)
        · exact Or.inl h
        · exact Or.inr ⟨e, (hnew e).mpr he, hj⟩
    have hndb₁ : ((gcNewNodes s₁ lvl
        (gcUniqueNext st₁.visited (gcRelevant s₁ lvl st₁.cur))).map (·.id)).Nodup :=
      hne₁.sublist ((List.filter_sublist s₁.entities).map (·.id))
    have hndb₂ : ((gcNewNodes s₂ lvl
        (gcUniqueNext st₂.visited (gcRelevant s₂ lvl st₂.cur))).map (·.id)).Nodup :=
      hne₂.sublist ((List.filter_sublist s₂.entities).map (·.id))
    have hfresh₁ : ∀ e ∈ gcNewNodes s₁ lvl
        (gcUniqueNext st₁.visited (gcRelevant s₁ lvl st₁.cur)),
        ∀ p ∈ st₁.nodes, p.1 ≠ e.id := by
      intro e he p hp
      have hu := ((gcNewNodes_mem _ _ _ _).mp he).2.1
      have hnv := ((gcUniqueNext_mem _ _ _).mp hu).choose_spec.2.2
      intro hcontra
      exact hnv (hcontra ▸ (hinv₁.nodes_spec p hp).1)
    have hfresh₂ : ∀ e ∈ gcNewNodes s₂ lvl
        (gcUniqueNext st₂.visited (gcRelevant s₂ lvl st₂.cur)),
        ∀ p ∈ st₂.nodes, p.1 ≠ e.id := by
      intro e he p hp
      have hu := ((gcNewNodes_mem _ _ _ _).mp he).2.1
      have hnv := ((gcUniqueNext_mem _ _ _).mp hu).choose_spec.2.2
      intro hcontra
      exact hnv (hcontra ▸ (hinv₂.nodes_spec p hp).1)
    have hstep₁ : gcRound s₁ lvl st₁ = (⟨(gcNewNodes s₁ lvl
        (gcUniqueNext st₁.visited (gcRelevant s₁ lvl st₁.cur))).map (·.id),
        (gcNewNodes s₁ lvl (gcUniqueNext st₁.visited (gcRelevant s₁ lvl st₁.cur))).foldl
          (fun v e => setAddNat v e.id) st₁.visited,
        (gcNewNodes s₁ lvl (gcUniqueNext st₁.visited (gcRelevant s₁ lvl st₁.cur))).foldl
          (fun m e => mapSet m e.id (toGraphNode e)) st₁.nodes,
        gcAddEdges ((gcNewNodes s₁ lvl
            (gcUniqueNext st₁.visited (gcRelevant s₁ lvl st₁.cur))).foldl
          (fun v e => setAddNat v e.id) st₁.visited)
          (gcRelevant s₁ lvl st₁.cur) st₁.edges,
        st₁.fetched ++ gcRelevant s₁ lvl st₁.cur⟩, true) := by
      unfold gcRound
      rw [if_neg hempty]
    have hstep₂ : gcRound s₂ lvl st₂ = (⟨(gcNewNodes s₂ lvl
        (gcUniqueNext st₂.visited (gcRelevant s₂ lvl st₂.cur))).map (·.id),
        (gcNewNodes s₂ lvl (gcUniqueNext st₂.visited (gcRelevant s₂ lvl st₂.cur))).foldl
          (fun v e => setAddNat v e.id) st₂.visited,
        (gcNewNodes s₂ lvl (gcUniqueNext st₂.visited (gcRelevant s₂ lvl st₂.cur))).foldl
          (fun m e => mapSet m e.id (toGraphNode e)) st₂.nodes,
        gcAddEdges ((gcNewNodes s₂ lvl
            (gcUniqueNext st₂.visited (gcRelevant s₂ lvl st₂.cur))).foldl
          (fun v e => setAddNat v e.id) st₂.visited)
          (gcRelevant s₂ lvl st₂.cur) st₂.edges,
        st₂.fetched ++ gcRelevant s₂ lvl st₂.cur⟩, true) := by
      unfold gcRound
      rw [if_neg hempty₂]
    rw [hstep₁, hstep₂]
    refine ⟨⟨?_, hvis', ?_, ?_⟩, rfl⟩
    · intro i
      rw [List.mem_map, List.mem_map]
      constructor
      · rintro ⟨e, he, hie⟩
        exact ⟨e, (hnew e).mp he, hie⟩
      · rintro ⟨e, he, hie⟩
        exact ⟨e, (hnew e).mpr he, hie⟩
    · intro q
      rw [foldl_mapSet_nodes_mem _ _ hndb₁ hfresh₁ q,
        foldl_mapSet_nodes_mem _ _ hndb₂ hfresh₂ q, hnodes q]
      constructor
      · rintro (h | ⟨e, he, hq⟩)
        · exact Or.inl h
        · exact Or.inr ⟨e, (hnew e).mp he, hq⟩
      · rintro (h | ⟨e, he, hq⟩)
        · exact Or.inl h
        · exact Or.inr ⟨e, (hnew e).mpr he, hq⟩
    · intro q
      rw [gcAddEdges_mem _ _ _ hagree₁ hsame₁ q, gcAddEdges_mem _ _ _ hagree₂ hsame₂ q,
        hedges q]
      constructor
      · rintro (h | ⟨r, hr, ⟨hs, ht⟩, hq⟩)
        · exact Or.inl h
        · exact Or.inr ⟨r, (hrels r).mp hr,
            ⟨(hvis' _).mp hs, (hvis' _).mp ht⟩, hq⟩
      · rintro (h | ⟨r, hr, ⟨hs, ht⟩, hq⟩)
        · exact Or.inl h
        · exact Or.inr ⟨r, (hrels r).mpr hr,
            ⟨(hvis' _).mpr hs, (hvis' _).mpr ht⟩, hq⟩

/-- The depth loop keeps permuted-store runs in lockstep. -/
theorem gcLoop_equiv (s₁ s₂ : Store) (lvl : PrivacyLevel)
    (hper : s₁.entities.Perm s₂.entities) (hprr : s₁.relations.Perm s₂.relations)
    (hne₁ : (s₁.entities.map (·.id)).Nodup) (hnr₁ : (s₁.relations.map (·.id)).Nodup) :
    ∀ (d : Nat) (st₁ st₂ : GCState), GCInv s₁ lvl st₁ → GCInv s₂ lvl st₂ →
      StateEquiv st₁ st₂ →
      StateEquiv (gcLoop s₁ lvl d st₁) (gcLoop s₂ lvl d st₂) := by
  have hne₂ : (s₂.entities.map (·.id)).Nodup := ((hper.map (·.id)).nodup_iff).mp hne₁
  have hnr₂ : (s₂.relations.map (·.id)).Nodup := ((hprr.map (·.id)).nodup_iff).mp hnr₁
  intro d
  induction d with
  | zero => intro st₁ st₂ _ _ heq; exact heq
  | succ n ih =>
      intro st₁ st₂ h₁ h₂ heq
      rw [gcLoop, gcLoop]
      have hcmp : st₁.cur.isEmpty = st₂.cur.isEmpty := isEmpty_of_equiv heq.1
      by_cases hc : st₁.cur.isEmpty
      · have hc₂ : st₂.cur.isEmpty := by rw [← hcmp]; exact hc
        rw [if_pos hc, if_pos hc₂]
        exact heq
      · have hc₂ : ¬ st₂.cur.isEmpty = true := by rw [← hcmp]; exact hc
        rw [if_neg hc, if_neg hc₂]
        have hr := gcRound_equiv s₁ s₂ lvl hper hprr hne₁ hnr₁ st₁ st₂ h₁ h₂ heq
        have hi₁ := gcRound_inv s₁ lvl hne₁ hnr₁ st₁ h₁
        have hi₂ := gcRound_inv s₂ lvl hne₂ hnr₂ st₂ h₂
        cases hb : (gcRound s₁ lvl st₁).2
        · have hb₂ : (gcRound s₂ lvl st₂).2 = false := by rw [← hr.2]; exact hb
          simp only [hb, hb₂, if_false, Bool.false_eq_true]
          exact hr.1
        · have hb₂ : (gcRound s₂ lvl st₂).2 = true := by rw [← hr.2]; exact hb
          simp only [hb, hb₂, if_true]
          exact ih _ _ hi₁.1 hi₂.1 hr.1

/-- Permuted stores initialize to equivalent traversal states. -/
theorem gcInit_equiv (s₁ s₂ : Store) (seeds : List Nat) (lvl : PrivacyLevel)
    (hper : s₁.entities.Perm s₂.entities)
    (hne₁ : (s₁.entities.map (·.id)).Nodup) :
    StateEquiv (gcInit s₁ seeds lvl) (gcInit s₂ seeds lvl) := by
  have hne₂ : (s₂.entities.map (·.id)).Nodup := ((hper.map (·.id)).nodup_iff).mp hne₁
  have hfil : ∀ e : Entity,
      e ∈ s₁.entities.filter (fun e => seeds.contains e.id && entityVisible lvl e) ↔
      e ∈ s₂.entities.filter (fun e => seeds.contains e.id && entityVisible lvl e) := by
    intro e
    rw [gcInit_initialNodes_mem, gcInit_initialNodes_mem, hper.mem_iff]
  have hndb₁ : ((s₁.entities.filter
      (fun e => seeds.contains e.id && entityVisible lvl e)).map (·.id)).Nodup :=
    hne₁.sublist ((List.filter_sublist s₁.entities).map (·.id))
  have hndb₂ : ((s₂.entities.filter
      (fun e => seeds.contains e.id && entityVisible lvl e)).map (·.id)).Nodup :=
    hne₂.sublist ((List.filter_sublist s₂.entities).map (·.id))
  have hfresh₁ : ∀ e ∈ s₁.entities.filter
      (fun e => seeds.contains e.id && entityVisible lvl e),
      ∀ p ∈ ([] : List (Nat × GraphNode)), p.1 ≠ e.id := by
    intro e _ p hp
    cases hp
  have hfresh₂ : ∀ e ∈ s₂.entities.filter
      (fun e => seeds.contains e.id && entityVisible lvl e),
      ∀ p ∈ ([] : List (Nat × GraphNode)), p.1 ≠ e.id := by
    intro e _ p hp
    cases hp
  refine ⟨?_, ?_, ?_, ?_⟩
  · intro i
    show i ∈ (s₁.entities.filter _).map (·.id) ↔ i ∈ (s₂.entities.filter _).map (·.id)
    rw [List.mem_map, List.mem_map]
    constructor
    · rintro ⟨e, he, hie⟩
      exact ⟨e, (hfil e).mp he, hie⟩
    · rintro ⟨e, he, hie⟩
      exact ⟨e, (hfil e).mpr he, hie⟩
  · intro i
    show i ∈ ((s₁.entities.filter _).map (·.id)).foldl setAddNat [] ↔
      i ∈ ((s₂.entities.filter _).map (·.id)).foldl setAddNat []
    rw [foldl_setAddNat_mem, foldl_setAddNat_mem, List.mem_map, List.mem_map]
    constructor
    · rintro (h | ⟨e, he, hie⟩)
      · cases h
      · exact Or.inr ⟨e, (hfil e).mp he, hie⟩
    · rintro (h | ⟨e, he, hie⟩)
      · cases h
      · exact Or.inr ⟨e, (hfil e).mpr he, hie⟩
  · intro q
    show q ∈ (s₁.entities.filter _).foldl (fun m e => mapSet m e.id (toGraphNode e)) [] ↔
      q ∈ (s₂.entities.filter _).foldl (fun m e => mapSet m e.id (toGraphNode e)) []
    rw [foldl_mapSet_nodes_mem _ [] hndb₁ hfresh₁ q,
      foldl_mapSet_nodes_mem _ [] hndb₂ hfresh₂ q]
    constructor
    · rintro (h | ⟨e, he, hq⟩)
      · cases h
      · exact Or.inr ⟨e, (hfil e).mp he, hq⟩
    · rintro (h | ⟨e, he, hq⟩)
      · cases h
      · exact Or.inr ⟨e, (hfil e).mpr he, hq⟩
  · intro q
    show q ∈ ([] : List (Nat × GraphEdge)) ↔ q ∈ ([] : List (Nat × GraphEdge))
    exact Iff.rfl

/-- C9: getGraphContext is deterministic over the store contents. For a fixed
row set (ids being primary keys), two runs over any two orderings of the
entity and relation tables return the same node set and the same edge set. -/
theorem getGraphContext_deterministic (s₁ s₂ : Store) (seeds : List Nat)
    (depth : Nat) (lvl : PrivacyLevel)
    (hper : s₁.entities.Perm s₂.entities) (hprr : s₁.relations.Perm s₂.relations)
    (hne₁ : (s₁.entities.map (·.id)).Nodup) (hnr₁ : (s₁.relations.map (·.id)).Nodup) :
    (getGraphContext s₁ seeds depth lvl).nodes.toFinset =
      (getGraphContext s₂ seeds depth lvl).nodes.toFinset ∧
    (getGraphContext s₁ seeds depth lvl).edges.toFinset =
      (getGraphContext s₂ seeds depth lvl).edges.toFinset := by
  have hne₂ : (s₂.entities.map (·.id)).Nodup := ((hper.map (·.id)).nodup_iff).mp hne₁
  have hnr₂ : (s₂.relations.map (·.id)).Nodup := ((hprr.map (·.id)).nodup_iff).mp hnr₁
  have h0₁ := gcInit_inv s₁ seeds lvl hne₁
  have h0₂ := gcInit_inv s₂ seeds lvl hne₂
  have hfin : StateEquiv (getGraphContextState s₁ seeds depth lvl)
      (getGraphContextState s₂ seeds depth lvl) :=
    gcLoop_equiv s₁ s₂ lvl hper hprr hne₁ hnr₁ depth _ _ h0₁.1 h0₂.1
      (gcInit_equiv s₁ s₂ seeds lvl hper hne₁)
  constructor
  · apply Finset.ext
    intro n
    rw [List.mem_toFinset, List.mem_toFinset]
    show n ∈ (getGraphContextState s₁ seeds depth lvl).nodes.map (·.2) ↔
      n ∈ (getGraphContextState s₂ seeds depth lvl).nodes.map (·.2)
    rw [List.mem_map, List.mem_map]
    constructor
    · rintro ⟨q, hq, hqn⟩
      exact ⟨q, (hfin.2.2.1 q).mp hq, hqn⟩
    · rintro ⟨q, hq, hqn⟩
      exact ⟨q, (hfin.2.2.1 q).mpr hq, hqn⟩
  · apply Finset.ext
    intro ge
    rw [List.mem_toFinset, List.mem_toFinset]
    show ge ∈ (getGraphContextState s₁ seeds depth lvl).edges.map (·.2) ↔
      ge ∈ (getGraphContextState s₂ seeds depth lvl).edges.map (·.2)
    rw [List.mem_map, List.mem_map]
    constructor
    · rintro ⟨q, hq, hqe⟩
      exact ⟨q, (hfin.2.2.2 q).mp hq, hqe⟩
    · rintro ⟨q, hq, hqe⟩
      exact ⟨q, (hfin.2.2.2 q).mpr hq, hqe⟩

/-- The c1Store with both tables reversed, for the determinism witness. -/
def c9Store : Store :=
  ⟨[⟨3, "C", "PERSON", none, PUBLIC, USER, none, none⟩,
    ⟨2, "B", "PERSON", none, PRIVATE, USER, none, none⟩,
    ⟨1, "A", "COMPANY", none, PUBLIC, USER, none, none⟩],
   [⟨11, 1, 3, "WORKS_AT", none, PUBLIC, USER, none, none⟩,
    ⟨10, 1, 2, "WORKS_AT", none, PUBLIC, USER, none, none⟩]⟩

/-- Witness for C9: the traversal of c1Store and of its row-reversed copy
return the same node and edge sets. -/
theorem getGraphContext_deterministic_witness :
    (c1Store.entities.Perm c9Store.entities) ∧
    (c1Store.relations.Perm c9Store.relations) ∧
    ((c1Store.entities.map (·.id)).Nodup) ∧
    ((c1Store.relations.map (·.id)).Nodup) ∧
    (getGraphContext c1Store [1] 2 PUBLIC).nodes.toFinset =
      (getGraphContext c9Store [1] 2 PUBLIC).nodes.toFinset := by
  have hper : c1Store.entities.Perm c9Store.entities := by decide
  have hprr : c1Store.relations.Perm c9Store.relations := by decide
  exact ⟨hper, hprr, by decide, by decide,
    (getGraphContext_deterministic c1Store c9Store [1] 2 PUBLIC hper hprr
      (by decide) (by decide)).1⟩

end Seneschal
